import Mathlib

/-!
Verification of the gitverse-backend analysis pipeline.

The development shallowly embeds the Extractor (`src/server/services/gitService.ts`)
and the Pipeline Orchestrator (`RepositoryService.analyzeRepository`) in Lean 4.

Modelling conventions:
* JavaScript strings are embedded as `List Char` (`Line`); the JS single-character
  `split`, `includes`, `trim` operations become `splitOnChar`, `jsIncludes`,
  `trimChars`, which reproduce their semantics character by character.
* JS `number` arithmetic on percentages is modelled exactly in `ℚ`
  (`Math.round` is Mathlib's `round`, which equals `⌊x + 1/2⌋`, the same
  half-up convention as JS for the non-negative values that occur here).
* `new Date(s)` is an external parser; functions that store a timestamp take a
  date-parse parameter `pd : Line → Int` and theorems hold for every `pd`.
* The shortstat regex extraction and the per-commit `git show --numstat` call
  are externals of the commit parser; `getCommits` takes them as parameters
  `sp` / `fc`, since no claim concerns the numbers they produce.
* Effects of the persistence collaborator are modelled by explicit state
  passing over a `DB` record; thrown exceptions by an explicit failure
  injection point (`failAt`) in the orchestrator's step sequence.
-/

/-! ## Character-list string utilities (JS string operations) -/

abbrev Line := List Char

/-- Semantics of JS `s.split(c)` for a single-character separator. -/
def splitOnChar (c : Char) : Line → List Line
  | [] => [[]]
  | x :: xs =>
    if x = c then [] :: splitOnChar c xs
    else
      match splitOnChar c xs with
      | [] => [[x]]
      | y :: ys => (x :: y) :: ys

/-- Semantics of JS `parts.join(c)` for a single-character separator. -/
def joinWith (c : Char) : List Line → Line
  | [] => []
  | [l] => l
  | l :: ls => l ++ c :: joinWith c ls

/-- Whitespace test backing JS `trim()` for the characters relevant here. -/
def isJsSpace (c : Char) : Bool :=
  c = ' ' || c = '\t' || c = '\n' || c = '\r'

/-- Semantics of JS `s.trim()`. -/
def trimChars (s : Line) : Line :=
  ((s.dropWhile isJsSpace).reverse.dropWhile isJsSpace).reverse

/-- Prefix test backing `jsIncludes`. -/
def isPrefixAt (needle hay : Line) : Bool :=
  match needle, hay with
  | [], _ => true
  | _ :: _, [] => false
  | n :: ns, h :: hs => n = h && isPrefixAt ns hs

/-- Semantics of JS `s.includes(t)` (substring containment). -/
def jsIncludes (needle : Line) : Line → Bool
  | [] => needle.isEmpty
  | x :: xs => isPrefixAt needle (x :: xs) || jsIncludes needle xs

/-- Semantics of JS `s.includes(c)` for a single character. -/
def containsChar (c : Char) (l : Line) : Bool :=
  l.contains c

/-- Leading decimal digits of a string. -/
def leadingDigits : Line → Line
  | [] => []
  | x :: xs => if x.isDigit then x :: leadingDigits xs else []

/-- Semantics of JS `parseInt(s) || 0` on the non-negative numeric fields of
`git` numstat output: the leading digit run is parsed, anything without a
leading digit (including the empty string) yields 0. -/
def parseIntOr0 (s : Line) : Nat :=
  (leadingDigits s).foldl (fun acc c => acc * 10 + (c.toNat - 48)) 0

/-! ## Extractor data records (gitService.ts interfaces) -/

structure FileChangeData where
  path : Line
  additions : Nat
  deletions : Nat
  changeType : String
deriving DecidableEq

structure CommitData where
  hash : Line
  shortHash : Line
  message : Line
  description : Option Line
  authorName : Line
  authorEmail : Line
  committedAt : Int
  branch : Line
  additions : Nat
  deletions : Nat
  filesChanged : Nat
  fileChanges : List FileChangeData
deriving DecidableEq

structure BranchData where
  name : String
  isDefault : Bool
  isProtected : Bool
  commitCount : Nat
  lastCommitAt : Int
deriving DecidableEq

structure ContributorData where
  name : Line
  email : Line
  commits : Nat
  additions : Nat
  deletions : Nat
  firstCommit : Int
  lastCommit : Int
deriving DecidableEq

structure LanguageData where
  name : String
  percentage : ℚ
  bytes : Nat
  lines : Nat
deriving DecidableEq

/-! ## GitService.getCommits (gitService.ts lines 117-200)

The `git log` stdout is split by the code at every line matching
`/^[a-f0-9]{40}\|/`; the list of resulting blocks is the input here.
`sp` abstracts the shortstat regex extraction (files changed, insertions,
deletions) applied to a found stats line, `fc` the separate
`getFileChanges(hash)` invocation, and `pd` the `new Date` parser. -/

inductive BlockResult
  | emptyBlock
  | warn (msg : String)
  | parsed (c : CommitData)
deriving DecidableEq

def parseBlockLines (sp : Line → Nat × Nat × Nat) (fc : Line → List FileChangeData)
    (pd : Line → Int) (branch : Line) (lines : List Line) : BlockResult :=
  match lines with
  | [] => BlockResult.emptyBlock
  | firstLine :: _ =>
    let parts := splitOnChar '|' firstLine
    if parts.length < 6 then BlockResult.warn "Skipping commit with insufficient fields"
    else
      let hash := parts.getD 0 []
      let shortHash := parts.getD 1 []
      let authorName := parts.getD 2 []
      let authorEmail := parts.getD 3 []
      let date := parts.getD 4 []
      let message := parts.getD 5 []
      let descParts := parts.drop 6
      if hash.isEmpty || authorName.isEmpty || authorEmail.isEmpty
          || date.isEmpty || message.isEmpty then
        BlockResult.warn "Skipping commit with missing fields"
      else
        let descJoined := trimChars (joinWith '|' descParts)
        let description := if descJoined.isEmpty then none else some descJoined
        let statsLine := lines.find? (fun l =>
          jsIncludes "changed".toList l || jsIncludes "file".toList l)
        let stats := match statsLine with
          | none => (0, 0, 0)
          | some l => sp l
        let storedShort := if (trimChars shortHash).isEmpty then hash.take 7
          else trimChars shortHash
        BlockResult.parsed
          { hash := trimChars hash
            shortHash := storedShort
            message := trimChars message
            description := description
            authorName := trimChars authorName
            authorEmail := trimChars authorEmail
            committedAt := pd (trimChars date)
            branch := branch
            additions := stats.2.1
            deletions := stats.2.2
            filesChanged := stats.1
            fileChanges := fc hash }

def parseBlock (sp : Line → Nat × Nat × Nat) (fc : Line → List FileChangeData)
    (pd : Line → Int) (branch : Line) (rawBlock : Line) : BlockResult :=
  parseBlockLines sp fc pd branch
    ((splitOnChar '\n' (trimChars rawBlock)).filter (fun l => !l.isEmpty))

/-- One iteration of the `getCommits` block loop: a parsed commit is
appended to the result, a malformed block appends its `console.warn`
diagnostic instead, and iteration always continues with the next block. -/
def commitStep (sp : Line → Nat × Nat × Nat) (fc : Line → List FileChangeData)
    (pd : Line → Int) (branch : Line) (acc : List CommitData × List String)
    (b : Line) : List CommitData × List String :=
  match parseBlock sp fc pd branch b with
  | BlockResult.emptyBlock => acc
  | BlockResult.warn m => (acc.1, acc.2 ++ [m])
  | BlockResult.parsed c => (acc.1 ++ [c], acc.2)

/-- Loop of `getCommits` over the hash-delimited blocks. -/
def getCommits (sp : Line → Nat × Nat × Nat) (fc : Line → List FileChangeData)
    (pd : Line → Int) (branch : Line) (blocks : List Line) :
    List CommitData × List String :=
  blocks.foldl (commitStep sp fc pd branch) ([], [])

/-! ## GitService.getContributors (gitService.ts lines 242-294) -/

structure AuthorCtx where
  name : Line
  email : Line
  date : Int
deriving DecidableEq

/-- Mutation of the `contributorMap` entry for `a.email` performed by one
numstat line: the per-email record is created with `commits = 1` or updated
with `commits++`, running sums and running min/max of the author date. The
map is embedded as a list in insertion order. -/
def updateContributor (cs : List ContributorData) (a : AuthorCtx)
    (adds dels : Nat) : List ContributorData :=
  match cs with
  | [] => [⟨a.name, a.email, 1, adds, dels, a.date, a.date⟩]
  | c :: rest =>
    if c.email == a.email then
      { c with
        commits := c.commits + 1
        additions := c.additions + adds
        deletions := c.deletions + dels
        lastCommit := if a.date > c.lastCommit then a.date else c.lastCommit
        firstCommit := if a.date < c.firstCommit then a.date else c.firstCommit } :: rest
    else c :: updateContributor rest a adds dels

/-- One iteration of the `getContributors` line loop: empty lines are
skipped; a line containing `|` but no tab replaces the current author; any
other line containing a tab while an author is current is a numstat line and
mutates that author's aggregate. -/
def contributorStep (pd : Line → Int) (st : Option AuthorCtx × List ContributorData)
    (line : Line) : Option AuthorCtx × List ContributorData :=
  if line.isEmpty then st
  else if containsChar '|' line && !containsChar '\t' line then
    let parts := splitOnChar '|' line
    (some ⟨parts.getD 0 [], parts.getD 1 [], pd (parts.getD 2 [])⟩, st.2)
  else
    match st.1 with
    | some a =>
      if containsChar '\t' line then
        let parts := splitOnChar '\t' line
        let addStr := parts.getD 0 []
        let delStr := parts.getD 1 []
        let adds := if addStr = ['-'] then 0 else parseIntOr0 addStr
        let dels := if delStr = ['-'] then 0 else parseIntOr0 delStr
        (st.1, updateContributor st.2 a adds dels)
      else st
    | none => st

def getContributors (pd : Line → Int) (lines : List Line) : List ContributorData :=
  (lines.foldl (contributorStep pd) (none, [])).2

/-! Specification-side view of the same stream: the list of numstat lines,
each attributed to the author line most recently seen before it. -/

structure StatEntry where
  name : Line
  email : Line
  additions : Nat
  deletions : Nat
  date : Int
deriving DecidableEq

def contribEntries (pd : Line → Int) : Option AuthorCtx → List Line → List StatEntry
  | _, [] => []
  | ctx, line :: rest =>
    if line.isEmpty then contribEntries pd ctx rest
    else if containsChar '|' line && !containsChar '\t' line then
      let parts := splitOnChar '|' line
      contribEntries pd (some ⟨parts.getD 0 [], parts.getD 1 [], pd (parts.getD 2 [])⟩) rest
    else
      match ctx with
      | some a =>
        if containsChar '\t' line then
          let parts := splitOnChar '\t' line
          let addStr := parts.getD 0 []
          let delStr := parts.getD 1 []
          ⟨a.name, a.email,
            (if addStr = ['-'] then 0 else parseIntOr0 addStr),
            (if delStr = ['-'] then 0 else parseIntOr0 delStr), a.date⟩
            :: contribEntries pd ctx rest
        else contribEntries pd ctx rest
      | none => contribEntries pd ctx rest

def entriesFor (email : Line) (es : List StatEntry) : List StatEntry :=
  es.filter (fun e => e.email == email)

def findContributor (email : Line) (cs : List ContributorData) : Option ContributorData :=
  cs.find? (fun c => c.email == email)

/-! ## GitService language detection (gitService.ts lines 331-550) -/

/-- Extension→language table of `detectLanguageFromExtension`, keyed by the
lowercased extension with its first `.` removed. -/
def languageMap : List (String × String) :=
  [("js", "JavaScript"), ("jsx", "JavaScript"), ("mjs", "JavaScript"),
   ("cjs", "JavaScript"), ("ts", "TypeScript"), ("tsx", "TypeScript"),
   ("py", "Python"), ("pyw", "Python"), ("pyx", "Python"),
   ("java", "Java"),
   ("c", "C"), ("h", "C"),
   ("cpp", "C++"), ("cc", "C++"), ("cxx", "C++"), ("hpp", "C++"), ("hxx", "C++"),
   ("cs", "C#"),
   ("go", "Go"),
   ("rs", "Rust"),
   ("rb", "Ruby"),
   ("php", "PHP"),
   ("swift", "Swift"),
   ("kt", "Kotlin"), ("kts", "Kotlin"),
   ("scala", "Scala"), ("sc", "Scala"),
   ("r", "R"),
   ("sh", "Shell"), ("bash", "Shell"), ("zsh", "Shell"),
   ("html", "HTML"), ("htm", "HTML"),
   ("css", "CSS"), ("scss", "SCSS"), ("sass", "Sass"), ("less", "Less"),
   ("json", "JSON"), ("xml", "XML"), ("yaml", "YAML"), ("yml", "YAML"),
   ("toml", "TOML"), ("ini", "INI"),
   ("md", "Markdown"), ("markdown", "Markdown"), ("rst", "reStructuredText"),
   ("sql", "SQL"),
   ("vue", "Vue"), ("svelte", "Svelte")]

/-- Semantics of JS `s.replace(c, empty)`: remove the first occurrence of `c`. -/
def removeFirstChar (c : Char) : List Char → List Char
  | [] => []
  | x :: xs => if x = c then xs else x :: removeFirstChar c xs

/-- Semantics of JS `toLowerCase` on the ASCII characters extensions are
made of. -/
def jsToLower (c : Char) : Char :=
  if 65 ≤ c.toNat ∧ c.toNat ≤ 90 then Char.ofNat (c.toNat + 32) else c

/-- GitService.detectLanguageFromExtension: lowercase the extension, drop the
first dot, then a table lookup; unknown extensions yield no language. -/
def detectLanguageFromExtension (extension : Option String) : Option String :=
  match extension with
  | none => none
  | some e =>
    List.lookup (String.mk (removeFirstChar '.' (e.data.map jsToLower))) languageMap

/-- Per-file record produced by `getFileTree` (tracked path with stat data
and the language assigned by `detectLanguageFromExtension`). -/
structure FileEntry where
  path : String
  name : String
  size : Nat
  extension : Option String
  lines : Nat
  language : Option String
deriving DecidableEq

/-- Local extension→language table declared inside `detectLanguages`, keyed
by the raw (dotted, case-sensitive) extension. It is strictly smaller than
`languageMap`. -/
def extensionToLanguage : List (String × String) :=
  [(".ts", "TypeScript"), (".tsx", "TypeScript"),
   (".js", "JavaScript"), (".jsx", "JavaScript"),
   (".py", "Python"), (".java", "Java"), (".go", "Go"), (".rs", "Rust"),
   (".cpp", "C++"), (".c", "C"), (".cs", "C#"), (".rb", "Ruby"),
   (".php", "PHP"), (".swift", "Swift"), (".kt", "Kotlin"),
   (".css", "CSS"), (".scss", "SCSS"), (".html", "HTML"),
   (".json", "JSON"), (".md", "Markdown"), (".yml", "YAML"), (".yaml", "YAML")]

/-- Language that `detectLanguages` attributes to a file tree entry (its own
table applied to the raw extension). -/
def countedLanguage (f : FileEntry) : Option String :=
  f.extension.bind (fun e => List.lookup e extensionToLanguage)

/-- Mutation of the `languageStats` map entry (get-add-set); the JS `Map` is
embedded as a list in insertion order. -/
def updateLangStats : List (String × Nat × Nat) → String → Nat → Nat →
    List (String × Nat × Nat)
  | [], lang, sz, ln => [(lang, sz, ln)]
  | (n, b, l) :: rest, lang, sz, ln =>
    if n = lang then (n, b + sz, l + ln) :: rest
    else (n, b, l) :: updateLangStats rest lang sz ln

/-- One iteration of the `detectLanguages` file loop: a file with a mapped
extension adds its byte size and line count to its language's totals and its
size to `totalBytes`; other files are ignored. The line count re-read inside
the loop reproduces the count already held by the file tree entry. -/
def detectStep (st : List (String × Nat × Nat) × Nat) (f : FileEntry) :
    List (String × Nat × Nat) × Nat :=
  match f.extension with
  | none => st
  | some ext =>
    match List.lookup ext extensionToLanguage with
    | none => st
    | some lang => (updateLangStats st.1 lang f.size f.lines, st.2 + f.size)

/-- Semantics of the JS comparator sort `(a, b) => b.percentage - a.percentage`. -/
def sortByPercentageDesc (ls : List LanguageData) : List LanguageData :=
  List.insertionSort (fun a b => b.percentage ≤ a.percentage) ls

/-- GitService.detectLanguages: aggregate the file tree entries with its own
extension table, compute each percentage as the byte share of the aggregated
total, and sort descending by percentage. -/
def detectLanguages (files : List FileEntry) : List LanguageData :=
  let st := files.foldl detectStep ([], 0)
  sortByPercentageDesc
    (st.1.map (fun e => ⟨e.1, (e.2.1 : ℚ) / (st.2 : ℚ) * 100, e.2.1, e.2.2⟩))

/-! ## Orchestrator percentage pipeline (repositoryService lines 337-403 of
the service file, src/unnamed/part_001) -/

/-- Semantics of JS `Math.round(q * 100) / 100` in exact arithmetic;
Mathlib's `round` is `⌊x + 1/2⌋`, the same half-up convention as JS
`Math.round` on the values reached here. -/
def round2 (q : ℚ) : ℚ :=
  ((round (q * 100) : ℤ) : ℚ) / 100

/-- Semantics of JS `Math.max(...l)` for the nonempty lists reached by the
code (the empty case is never consulted: see `adjustPercentages`). -/
def jsMax (l : List ℚ) : ℚ :=
  match l with
  | [] => 0
  | x :: xs => xs.foldl max x

/-- Rounding correction of the orchestrator: round each raw percentage to two
decimals; if the rounded values sum to a positive value other than 100, add
the residual to the first occurrence of the largest rounded value (and round
the patched entry again). -/
def adjustPercentages (raw : List ℚ) : List ℚ :=
  let rounded := raw.map round2
  let s := rounded.sum
  if s > 0 ∧ s ≠ 100 then
    let diff := 100 - s
    let maxIndex := rounded.indexOf (jsMax rounded)
    rounded.set maxIndex (round2 (rounded.getD maxIndex 0 + diff))
  else rounded

/-- Non-code formats excluded by the orchestrator before language persistence. -/
def ignoredLanguages : List String := ["JSON", "YAML", "Markdown", "TOML", "CSV"]

/-- Language rows persisted by `analyzeRepository`: filter the ignored
formats, recompute raw percentages over the remaining byte total, and apply
`adjustPercentages`. -/
def computeLanguageRows (langs : List LanguageData) : List LanguageData :=
  let filteredLanguages := langs.filter (fun l => !(ignoredLanguages.contains l.name))
  let totalBytes : ℕ := (filteredLanguages.map (fun l => l.bytes)).sum
  let rawPercentages := filteredLanguages.map (fun l =>
    if 0 < totalBytes then (l.bytes : ℚ) / (totalBytes : ℚ) * 100 else 0)
  let adjusted := adjustPercentages rawPercentages
  (filteredLanguages.zip adjusted).map (fun p => { p.1 with percentage := p.2 })

/-- Contributor rows persisted by `analyzeRepository`: one `create` per
extracted contributor, with `percentage = commits / totalContributions * 100`
and no rounding. -/
structure ContributorRow where
  name : Line
  email : Line
  commits : Nat
  additions : Nat
  deletions : Nat
  percentage : ℚ
  firstCommit : Int
  lastCommit : Int
deriving DecidableEq

def contributorRowsOf (cs : List ContributorData) : List ContributorRow :=
  let totalContributions : ℕ := (cs.map (fun c => c.commits)).sum
  cs.map (fun c =>
    ⟨c.name, c.email, c.commits, c.additions, c.deletions,
      (c.commits : ℚ) / (totalContributions : ℚ) * 100, c.firstCommit, c.lastCommit⟩)

/-! ## Pipeline Orchestrator (RepositoryService.analyzeRepository) -/

/-- Persisted state of one repository (the single repository being analyzed;
natural keys are therefore `name` for branches, `hash` for commits and
`path` for files). -/
structure DB where
  status : String
  defaultBranch : String
  size : Nat
  lastAnalyzedSet : Bool
  branches : List BranchData
  commits : List CommitData
  files : List FileEntry
  contributors : List ContributorRow
  languages : List LanguageData
deriving DecidableEq

/-- Data the Extractor produces for one run (clone plus the extraction calls). -/
structure ExtractedData where
  size : Nat
  branches : List BranchData
  commits : List CommitData
  files : List FileEntry
  contributors : List ContributorData
  languages : List LanguageData
deriving DecidableEq

/-- Modelled from the spec: the Prisma schema (not part of the sources) backs
`prisma.branch.createMany(..., skipDuplicates: true)` with the Branch natural
key `(repositoryId, name)` (§3, §6 of the spec); a row whose name already
exists is skipped, others are appended. -/
def insertBranchRows (rows : List BranchData) (bs : List BranchData) : List BranchData :=
  bs.foldl (fun acc b =>
    if acc.any (fun r => r.name == b.name) then acc else acc ++ [b]) rows

/-- Steps 3-9 of `analyzeRepository` (the body of its `try`). -/
inductive Step
  | clone
  | branches
  | commits
  | files
  | contributors
  | languages
  | finalize
deriving DecidableEq

def applyStep (ext : ExtractedData) (s : Step) (db : DB) : DB :=
  match s with
  | Step.clone => db
  | Step.branches => { db with branches := insertBranchRows db.branches ext.branches }
  | Step.commits =>
    let newCommits := ext.commits.filter (fun c =>
      !(db.commits.any (fun e => e.hash == c.hash)))
    { db with commits := db.commits ++ newCommits }
  | Step.files =>
    let newFiles := ext.files.filter (fun f =>
      !(db.files.any (fun e => e.path == f.path)))
    { db with files := db.files ++ newFiles }
  | Step.contributors =>
    { db with contributors := db.contributors ++ contributorRowsOf ext.contributors }
  | Step.languages =>
    { db with languages := db.languages ++ computeLanguageRows ext.languages }
  | Step.finalize =>
    { db with
      status := "completed"
      lastAnalyzedSet := true
      defaultBranch := match ext.branches.find? (fun b => b.isDefault) with
        | some b => b.name
        | none => "main"
      size := ext.size }

def stepsList : List Step :=
  [Step.clone, Step.branches, Step.commits, Step.files,
   Step.contributors, Step.languages, Step.finalize]

/-- Sequential execution of the try body with an injected exception: when
`failAt = some (s, e)` the run performs every write before step `s` and
then raises `e`. -/
def runSteps (ext : ExtractedData) (failAt : Option (Step × String)) :
    List Step → DB → DB × Option String
  | [], db => (db, none)
  | s :: rest, db =>
    match failAt with
    | some (fs, e) =>
      if s = fs then (db, some e)
      else runSteps ext failAt rest (applyStep ext s db)
    | none => runSteps ext failAt rest (applyStep ext s db)

inductive Outcome
  | success
  | raised (e : String)
deriving DecidableEq

structure RunResult where
  db : DB
  outcome : Outcome
  cleanupCalled : Bool
  cleanupLog : List String
deriving DecidableEq

/-- GitService.cleanup: `fs.rm` wrapped in try/catch; a failure is only
logged, never rethrown. -/
def cleanup (cleanupFails : Bool) : List String :=
  if cleanupFails then ["Failed to cleanup repository"] else []

/-- RepositoryService.analyzeRepository for an existing repository id:
status is set to `analyzing`, the try body runs steps 3-9, the catch sets
status `failed` and rethrows, and the finally block calls `cleanup` exactly
when `gitService` is non-null, i.e. when the clone step did not throw. -/
def analyzeRepository (db : DB) (ext : ExtractedData)
    (failAt : Option (Step × String)) (cleanupFails : Bool) : RunResult :=
  let db1 := { db with status := "analyzing" }
  let r := runSteps ext failAt stepsList db1
  let cloneOk := match failAt with
    | some (Step.clone, _) => false
    | _ => true
  let log := if cloneOk then cleanup cleanupFails else []
  match r.2 with
  | none => ⟨r.1, Outcome.success, cloneOk, log⟩
  | some e => ⟨{ r.1 with status := "failed" }, Outcome.raised e, cloneOk, log⟩

/-! ## Demo inputs for closed counterexamples and witnesses -/

def pdZero : Line → Int := fun _ => 0

def spZero : Line → Nat × Nat × Nat := fun _ => (0, 0, 0)

def fcNil : Line → List FileChangeData := fun _ => []

def demoContributor : ContributorData :=
  ⟨"Alice".toList, "alice@example.com".toList, 3, 10, 2, 100, 200⟩

def demoLanguage : LanguageData := ⟨"TypeScript", 100, 300, 40⟩

def demoBranch : BranchData := ⟨"main", true, true, 5, 50⟩

def demoCommit : CommitData :=
  ⟨"aaaabbbbccccddddeeeeffff0000111122223333".toList, "aaaabbb".toList,
    "initial commit".toList, none, "Alice".toList, "alice@example.com".toList,
    100, "main".toList, 1, 0, 1, []⟩

def db0 : DB := ⟨"pending", "main", 0, false, [], [], [], [], []⟩

def ext0 : ExtractedData := ⟨42, [demoBranch], [demoCommit], [], [demoContributor], [demoLanguage]⟩

/-! ## Orchestrator reduction helpers -/

/-- Full description of the database after a successful `analyzeRepository`
run: branches are upserted by name, commits and files are inserted after the
natural-key set difference, contributor and language rows are appended, and
the repository row is finalized. -/
theorem analyze_success_db (db : DB) (ext : ExtractedData) (cf : Bool) :
    (analyzeRepository db ext none cf).db =
      { status := "completed"
        defaultBranch := match ext.branches.find? (fun b => b.isDefault) with
          | some b => b.name
          | none => "main"
        size := ext.size
        lastAnalyzedSet := true
        branches := insertBranchRows db.branches ext.branches
        commits := db.commits
          ++ ext.commits.filter (fun c => !(db.commits.any (fun e2 => e2.hash == c.hash)))
        files := db.files
          ++ ext.files.filter (fun f => !(db.files.any (fun e2 => e2.path == f.path)))
        contributors := db.contributors ++ contributorRowsOf ext.contributors
        languages := db.languages ++ computeLanguageRows ext.languages } := by
  simp [analyzeRepository, runSteps, stepsList, applyStep]

theorem analyze_success_outcome (db : DB) (ext : ExtractedData) (cf : Bool) :
    (analyzeRepository db ext none cf).outcome = Outcome.success := by
  simp [analyzeRepository, runSteps, stepsList, applyStep]

/-- Re-inserting the same extracted commits against the state left by a first
insertion adds nothing: every incoming hash is already present. -/
theorem filter_seen_commits (old cs : List CommitData) :
    cs.filter (fun c =>
      !((old ++ cs.filter (fun c2 => !(old.any (fun e2 => e2.hash == c2.hash)))).any
        (fun e2 => e2.hash == c.hash))) = [] := by
  rw [List.filter_eq_nil_iff]
  intro c hc
  simp only [Bool.not_eq_true', Bool.not_eq_false]
  rw [List.any_append]
  by_cases h : old.any (fun e2 => e2.hash == c.hash)
  · simp [h]
  · have hmem : c ∈ cs.filter (fun c2 => !(old.any (fun e2 => e2.hash == c2.hash))) := by
      refine List.mem_filter.mpr ⟨hc, ?_⟩
      simp [h]
    have : (cs.filter (fun c2 => !(old.any (fun e2 => e2.hash == c2.hash)))).any
        (fun e2 => e2.hash == c.hash) = true :=
      List.any_eq_true.mpr ⟨c, hmem, by simp⟩
    simp [this]

theorem insertBranchRows_cons (rows : List BranchData) (b : BranchData)
    (bs : List BranchData) :
    insertBranchRows rows (b :: bs) =
      insertBranchRows (if rows.any (fun r => r.name == b.name) then rows
        else rows ++ [b]) bs := by
  simp [insertBranchRows]

/-- The fold behind `createMany(skipDuplicates)` only appends rows. -/
theorem insertBranchRows_extends (rows bs : List BranchData) :
    ∃ t, insertBranchRows rows bs = rows ++ t := by
  induction bs generalizing rows with
  | nil => exact ⟨[], by simp [insertBranchRows]⟩
  | cons b bs ih =>
    rw [insertBranchRows_cons]
    by_cases h : rows.any (fun r => r.name == b.name)
    · simpa [h] using ih rows
    · obtain ⟨t, ht⟩ := ih (rows ++ [b])
      exact ⟨b :: t, by simp [h, ht]⟩

/-- Every inserted branch name is represented in the result. -/
theorem insertBranchRows_covers (rows bs : List BranchData) :
    ∀ b ∈ bs, ∃ r ∈ insertBranchRows rows bs, r.name = b.name := by
  induction bs generalizing rows with
  | nil => intro b hb; cases hb
  | cons b2 bs ih =>
    intro b hb
    rw [insertBranchRows_cons]
    rcases List.mem_cons.mp hb with rfl | hb
    · by_cases h : rows.any (fun r => r.name == b.name)
      · obtain ⟨r, hr, hrname⟩ := List.any_eq_true.mp h
        obtain ⟨t, ht⟩ := insertBranchRows_extends rows bs
        refine ⟨r, ?_, by simpa using hrname⟩
        simp only [h, if_true, ht]
        exact List.mem_append_left _ hr
      · obtain ⟨t, ht⟩ := insertBranchRows_extends (rows ++ [b]) bs
        refine ⟨b, ?_, rfl⟩
        simp only [h, Bool.false_eq_true, if_false, ht]
        exact List.mem_append_left _ (List.mem_append_right _ (List.mem_singleton_self b))
    · by_cases h : rows.any (fun r => r.name == b2.name)
      · simp only [h, if_true]
        exact ih rows b hb
      · simp only [h, if_false]
        exact ih (rows ++ [b2]) b hb

/-- When every incoming branch name is already present, the skip-duplicates
insert is the identity. -/
theorem insertBranchRows_stable (rows bs : List BranchData)
    (h : ∀ b ∈ bs, ∃ r ∈ rows, r.name = b.name) :
    insertBranchRows rows bs = rows := by
  induction bs with
  | nil => simp [insertBranchRows]
  | cons b bs ih =>
    obtain ⟨r, hr, hrname⟩ := h b (by simp)
    have hany : rows.any (fun r2 => r2.name == b.name) = true :=
      List.any_eq_true.mpr ⟨r, hr, by simp [hrname]⟩
    rw [insertBranchRows_cons]
    simp only [hany, if_true]
    exact ih (fun b2 hb2 => h b2 (by simp [hb2]))

theorem contributorRowsOf_length (cs : List ContributorData) :
    (contributorRowsOf cs).length = cs.length := by
  simp [contributorRowsOf]

theorem adjustPercentages_length (raw : List ℚ) :
    (adjustPercentages raw).length = raw.length := by
  simp only [adjustPercentages]
  split
  · simp
  · simp

theorem computeLanguageRows_length (ls : List LanguageData) :
    (computeLanguageRows ls).length
      = (ls.filter (fun l => !(ignoredLanguages.contains l.name))).length := by
  simp [computeLanguageRows, adjustPercentages_length]

/-! ## Claim C1 -/

/-- C1 counterexample: running `analyze` twice on identical extracted data
does not leave the Contributor/Language rows equal — the second run appends
a second copy of every row (1 row becomes 2 for both tables), because the
orchestrator only issues `create` calls and never deletes the previous rows. -/
theorem analyze_rerun_duplicates_contributor_language_rows :
    ((analyzeRepository db0 ext0 none false).db.contributors.length = 1 ∧
      (analyzeRepository (analyzeRepository db0 ext0 none false).db ext0 none
        false).db.contributors.length = 2) ∧
    ((analyzeRepository db0 ext0 none false).db.languages.length = 1 ∧
      (analyzeRepository (analyzeRepository db0 ext0 none false).db ext0 none
        false).db.languages.length = 2) ∧
    (analyzeRepository (analyzeRepository db0 ext0 none false).db ext0 none
        false).db.contributors ≠ (analyzeRepository db0 ext0 none false).db.contributors ∧
    (analyzeRepository (analyzeRepository db0 ext0 none false).db ext0 none
        false).db.languages ≠ (analyzeRepository db0 ext0 none false).db.languages := by
  refine ⟨⟨?_, ?_⟩, ⟨?_, ?_⟩, ?_, ?_⟩
  · simp [analyze_success_db, contributorRowsOf_length, db0, ext0]
  · simp [analyze_success_db, contributorRowsOf_length, db0, ext0]
  · simp [analyze_success_db, computeLanguageRows_length, db0, ext0, demoLanguage,
      ignoredLanguages]
  · simp [analyze_success_db, computeLanguageRows_length, db0, ext0, demoLanguage,
      ignoredLanguages]
  · intro h
    have h2 := congrArg List.length h
    simp [analyze_success_db, contributorRowsOf_length, db0, ext0] at h2
  · intro h
    have h2 := congrArg List.length h
    simp [analyze_success_db, computeLanguageRows_length, db0, ext0, demoLanguage,
      ignoredLanguages] at h2

/-- C1 (amended): `analyzeRepository` persists Contributor and Language rows
by insertion only — the freshly computed aggregates are appended to whatever
rows are already stored, with no delete-then-insert replacement, so a re-run
on unchanged extracted data appends a second copy of every row. -/
theorem analyze_contributor_language_rows_appended (db : DB) (ext : ExtractedData)
    (cf cf2 : Bool) :
    (analyzeRepository db ext none cf).db.contributors
        = db.contributors ++ contributorRowsOf ext.contributors ∧
    (analyzeRepository db ext none cf).db.languages
        = db.languages ++ computeLanguageRows ext.languages ∧
    (analyzeRepository (analyzeRepository db ext none cf).db ext none cf2).db.contributors
        = db.contributors ++ contributorRowsOf ext.contributors
            ++ contributorRowsOf ext.contributors ∧
    (analyzeRepository (analyzeRepository db ext none cf).db ext none cf2).db.languages
        = db.languages ++ computeLanguageRows ext.languages
            ++ computeLanguageRows ext.languages := by
  refine ⟨?_, ?_, ?_, ?_⟩ <;>
    simp [analyze_success_db]

/-! ## Claim C4 -/

/-- C4 counterexample: when the clone step itself throws, `gitService` is
still null, the `finally` block skips `cleanup`, and the scratch directory
(already created by `fs.mkdir` inside `cloneRepository`) is never deleted,
although the run raised after the scratch path was chosen. -/
theorem analyze_clone_failure_skips_cleanup :
    (analyzeRepository db0 ext0 (some (Step.clone, "clone failed")) false).cleanupCalled
        = false ∧
    (analyzeRepository db0 ext0 (some (Step.clone, "clone failed")) false).outcome
        = Outcome.raised "clone failed" := by
  exact ⟨rfl, rfl⟩

/-- C4 (amended): the scratch-directory cleanup runs on every exit path on
which the clone step succeeded (success or a later exception) and is skipped
exactly when the clone step itself throws; a cleanup failure is only logged
and changes neither the resulting database state nor the propagated
outcome. -/
theorem analyze_cleanup_on_clone_success (db : DB) (ext : ExtractedData)
    (failAt : Option (Step × String)) (cf : Bool) :
    ((analyzeRepository db ext failAt cf).cleanupCalled
        = match failAt with
          | some (Step.clone, _) => false
          | _ => true) ∧
    (analyzeRepository db ext failAt true).db = (analyzeRepository db ext failAt false).db ∧
    (analyzeRepository db ext failAt true).outcome
        = (analyzeRepository db ext failAt false).outcome ∧
    ((analyzeRepository db ext failAt cf).cleanupLog
        = if (analyzeRepository db ext failAt cf).cleanupCalled && cf
          then ["Failed to cleanup repository"] else []) := by
  rcases failAt with _ | ⟨s, e⟩
  · cases cf <;> simp [analyzeRepository, runSteps, stepsList, cleanup]
  · cases s <;> cases cf <;> simp [analyzeRepository, runSteps, stepsList, cleanup]

/-! ## Claim C5 -/

/-- C5: an exception raised at any step of the try body (clone through the
final repository update) makes `analyzeRepository` set the repository status
to `failed` and re-raise the same error to the caller. -/
theorem analyze_failure_sets_failed_and_reraises (db : DB) (ext : ExtractedData)
    (s : Step) (e : String) (cf : Bool) :
    (analyzeRepository db ext (some (s, e)) cf).db.status = "failed" ∧
    (analyzeRepository db ext (some (s, e)) cf).outcome = Outcome.raised e := by
  cases s <;> simp [analyzeRepository, runSteps, stepsList]

/-! ## Claim C6 -/

/-- C6: a successful run inserts exactly the extracted commits whose hash is
not already persisted and skips branch rows whose name already exists, so a
re-run (from any prior state, including one left by a failed run) leaves the
Commit and Branch rows unchanged while the status returns to `completed`. -/
theorem analyze_dedups_commits_and_branches (db : DB) (ext : ExtractedData)
    (cf cf2 : Bool) :
    (analyzeRepository db ext none cf).db.commits
        = db.commits ++ ext.commits.filter (fun c =>
            !(db.commits.any (fun e2 => e2.hash == c.hash))) ∧
    (analyzeRepository db ext none cf).db.branches
        = insertBranchRows db.branches ext.branches ∧
    (analyzeRepository (analyzeRepository db ext none cf).db ext none cf2).db.commits
        = (analyzeRepository db ext none cf).db.commits ∧
    (analyzeRepository (analyzeRepository db ext none cf).db ext none cf2).db.branches
        = (analyzeRepository db ext none cf).db.branches ∧
    (analyzeRepository (analyzeRepository db ext none cf).db ext none cf2).db.status
        = "completed" := by
  refine ⟨by simp [analyze_success_db], by simp [analyze_success_db], ?_, ?_, ?_⟩
  · simp only [analyze_success_db]
    rw [List.append_assoc]
    congr 1
    rw [filter_seen_commits db.commits ext.commits]
    simp
  · simp only [analyze_success_db]
    exact insertBranchRows_stable _ _ (insertBranchRows_covers db.branches ext.branches)
  · simp [analyze_success_db]

/-! ## Claim C3: largest-remainder correction -/

/-- Multiples of one hundredth: the form every two-decimal rounded value takes. -/
def isCent (q : ℚ) : Prop := ∃ z : ℤ, q = (z : ℚ) / 100

theorem round2_isCent (q : ℚ) : isCent (round2 q) :=
  ⟨round (q * 100), rfl⟩

theorem isCent_add {a b : ℚ} (ha : isCent a) (hb : isCent b) : isCent (a + b) := by
  obtain ⟨x, rfl⟩ := ha
  obtain ⟨y, rfl⟩ := hb
  exact ⟨x + y, by push_cast; ring⟩

theorem isCent_sub {a b : ℚ} (ha : isCent a) (hb : isCent b) : isCent (a - b) := by
  obtain ⟨x, rfl⟩ := ha
  obtain ⟨y, rfl⟩ := hb
  exact ⟨x - y, by push_cast; ring⟩

theorem isCent_hundred : isCent 100 :=
  ⟨10000, by norm_num⟩

theorem isCent_sum {l : List ℚ} (h : ∀ x ∈ l, isCent x) : isCent l.sum := by
  induction l with
  | nil => exact ⟨0, by norm_num⟩
  | cons x xs ih =>
    rw [List.sum_cons]
    exact isCent_add (h x (by simp)) (ih fun y hy => h y (by simp [hy]))

/-- Rounding to two decimals is the identity on two-decimal values. -/
theorem round2_eq_self {q : ℚ} (h : isCent q) : round2 q = q := by
  obtain ⟨z, rfl⟩ := h
  have h1 : (z : ℚ) / 100 * 100 = (z : ℚ) := by field_simp
  rw [round2, h1, round_intCast]

theorem round2_nonneg {q : ℚ} (h : 0 ≤ q) : 0 ≤ round2 q := by
  rw [round2]
  have h1 : (0 : ℤ) ≤ round (q * 100) := by
    rw [round_eq]
    exact Int.le_floor.mpr (by push_cast; linarith)
  positivity

theorem round2_pos {q : ℚ} (h : 1 / 200 ≤ q) : 0 < round2 q := by
  rw [round2]
  have h1 : (1 : ℤ) ≤ round (q * 100) := by
    rw [round_eq]
    exact Int.le_floor.mpr (by push_cast; linarith)
  have h2 : (1 : ℚ) ≤ ((round (q * 100) : ℤ) : ℚ) := by exact_mod_cast h1
  positivity

theorem sum_set_q (l : List ℚ) (i : Nat) (v : ℚ) (h : i < l.length) :
    (l.set i v).sum = l.sum - l.getD i 0 + v := by
  induction l generalizing i with
  | nil => simp at h
  | cons x xs ih =>
    cases i with
    | zero => simp [List.set, List.sum_cons]; ring
    | succ j =>
      have hj : j < xs.length := by simpa using h
      simp only [List.set, List.sum_cons, List.getD_cons_succ, ih j hj]
      ring

theorem foldl_max_mem (a : ℚ) (xs : List ℚ) : xs.foldl max a ∈ a :: xs := by
  induction xs generalizing a with
  | nil => simp
  | cons x xs ih =>
    have h := ih (max a x)
    rcases List.mem_cons.mp h with h1 | h1
    · rcases max_choice a x with h2 | h2 <;> rw [List.foldl_cons, h1, h2] <;> simp
    · simp [List.foldl_cons, List.mem_cons.mpr (Or.inr (List.mem_cons.mpr (Or.inr h1)))]

theorem jsMax_mem (l : List ℚ) (h : l ≠ []) : jsMax l ∈ l := by
  cases l with
  | nil => exact absurd rfl h
  | cons x xs => exact foldl_max_mem x xs

theorem getD_indexOf_self {l : List ℚ} {m : ℚ} (h : m ∈ l) :
    l.getD (l.indexOf m) 0 = m := by
  have hlt : l.indexOf m < l.length := List.indexOf_lt_length.mpr h
  rw [List.getD_eq_getElem?_getD, List.getElem?_eq_getElem hlt, Option.getD_some]
  exact List.getElem_indexOf hlt

theorem sum_lt_of_forall_lt (l : List ℚ) (c : ℚ) (hne : l ≠ []) (h : ∀ x ∈ l, x < c) :
    l.sum < l.length * c := by
  induction l with
  | nil => exact absurd rfl hne
  | cons x xs ih =>
    rw [List.sum_cons]
    cases xs with
    | nil => simpa using h x (by simp)
    | cons y ys =>
      have h2 := ih (by simp) (fun z hz => h z (by simp [List.mem_cons.mp hz]))
      have h3 := h x (by simp)
      have h4 : (((x :: y :: ys).length : ℕ) : ℚ) * c
          = (((y :: ys).length : ℕ) : ℚ) * c + c := by
        push_cast [List.length_cons]
        ring
      rw [h4]
      linarith

theorem exists_ge_of_sum_100 (l : List ℚ) (hsum : l.sum = 100) (hlen : l.length ≤ 20000) :
    ∃ x ∈ l, 1 / 200 ≤ x := by
  by_contra hc
  push_neg at hc
  have hne : l ≠ [] := by
    intro h
    rw [h] at hsum
    norm_num at hsum
  have h1 := sum_lt_of_forall_lt l (1 / 200) hne hc
  have h2 : (l.length : ℚ) ≤ 20000 := by exact_mod_cast hlen
  rw [hsum] at h1
  nlinarith

/-- Core property of the rounding correction: whenever the raw percentages
sum to 100, are non-negative, and at least one of them rounds to a positive
value, the corrected list sums to exactly 100. -/
theorem adjustPercentages_sum (raw : List ℚ)
    (hnn : ∀ x ∈ raw, 0 ≤ x) (hbig : ∃ x ∈ raw, 1 / 200 ≤ x) :
    (adjustPercentages raw).sum = 100 := by
  obtain ⟨x, hx, hxge⟩ := hbig
  have hcent : ∀ y ∈ raw.map round2, isCent y := by
    intro y hy
    obtain ⟨z, _, rfl⟩ := List.mem_map.mp hy
    exact round2_isCent z
  have hnnr : ∀ y ∈ raw.map round2, 0 ≤ y := by
    intro y hy
    obtain ⟨z, hz, rfl⟩ := List.mem_map.mp hy
    exact round2_nonneg (hnn z hz)
  have hxr : round2 x ∈ raw.map round2 := List.mem_map.mpr ⟨x, hx, rfl⟩
  have hspos : 0 < (raw.map round2).sum :=
    lt_of_lt_of_le (round2_pos hxge) (List.single_le_sum hnnr _ hxr)
  simp only [adjustPercentages]
  by_cases hs : (raw.map round2).sum > 0 ∧ (raw.map round2).sum ≠ 100
  · rw [if_pos hs]
    have hne : raw.map round2 ≠ [] := by
      intro h
      rw [h] at hxr
      exact absurd hxr (List.not_mem_nil _)
    have hmmem : jsMax (raw.map round2) ∈ raw.map round2 := jsMax_mem _ hne
    have hidx : (raw.map round2).indexOf (jsMax (raw.map round2))
        < (raw.map round2).length := List.indexOf_lt_length.mpr hmmem
    rw [sum_set_q _ _ _ hidx, getD_indexOf_self hmmem]
    have hcm : isCent (jsMax (raw.map round2)) := hcent _ hmmem
    have hcs : isCent (raw.map round2).sum := isCent_sum hcent
    rw [round2_eq_self (isCent_add hcm (isCent_sub isCent_hundred hcs))]
    ring
  · rw [if_neg hs]
    by_contra h100
    exact hs ⟨hspos, h100⟩

/-- C3: with a positive byte total after the exclusion filter (and the
repository-wide bound that the language table can produce at most a few
dozen distinct rows, generously weakened to 20000), the persisted
`Language.percentage` values sum to exactly 100 in exact arithmetic. -/
theorem computeLanguageRows_percentage_sum (langs : List LanguageData)
    (htotal : 0 < ((langs.filter (fun l => !(ignoredLanguages.contains l.name))).map
      (fun l => l.bytes)).sum)
    (hlen : langs.length ≤ 20000) :
    ((computeLanguageRows langs).map (fun r => r.percentage)).sum = 100 := by
  simp only [computeLanguageRows]
  set fl := langs.filter (fun l => !(ignoredLanguages.contains l.name)) with hfl
  set T := (fl.map (fun l => l.bytes)).sum with hT
  have hraw : fl.map (fun l => if 0 < T then (l.bytes : ℚ) / (T : ℚ) * 100 else 0)
      = fl.map (fun l => (l.bytes : ℚ) / (T : ℚ) * 100) :=
    List.map_congr_left (fun l _ => if_pos htotal)
  rw [hraw]
  set raw := fl.map (fun l => (l.bytes : ℚ) / (T : ℚ) * 100) with hrawEq
  have hTq : ((T : ℕ) : ℚ) ≠ 0 := Nat.cast_ne_zero.mpr htotal.ne'
  have hcast : ((((fl.map (fun l => l.bytes)).sum : ℕ)) : ℚ)
      = (fl.map (fun l => (l.bytes : ℚ))).sum := by
    simp [Nat.cast_list_sum, List.map_map, Function.comp_def]
  have hsum : raw.sum = 100 := by
    calc raw.sum = (fl.map (fun l => (l.bytes : ℚ) * (100 / (T : ℚ)))).sum := by
          rw [hrawEq]
          exact congrArg _ (List.map_congr_left fun l _ => by ring)
      _ = (fl.map (fun l => (l.bytes : ℚ))).sum * (100 / (T : ℚ)) :=
          List.sum_map_mul_right fl (fun l => (l.bytes : ℚ)) (100 / (T : ℚ))
      _ = ((T : ℕ) : ℚ) * (100 / (T : ℚ)) := by rw [← hcast, hT]
      _ = 100 := by field_simp
  have hnn : ∀ x ∈ raw, 0 ≤ x := by
    intro y hy
    obtain ⟨l, _, rfl⟩ := List.mem_map.mp hy
    positivity
  have hbig : ∃ x ∈ raw, 1 / 200 ≤ x := by
    apply exists_ge_of_sum_100 raw hsum
    rw [hrawEq]
    simp only [List.length_map]
    exact le_trans (List.length_filter_le _ _) hlen
  have hlenadj : (adjustPercentages raw).length = fl.length := by
    rw [adjustPercentages_length, hrawEq, List.length_map]
  have hproj : ((fl.zip (adjustPercentages raw)).map
      (fun p => { p.1 with percentage := p.2 })).map (fun r => r.percentage)
      = adjustPercentages raw := by
    rw [List.map_map]
    have : ((fun r : LanguageData => r.percentage) ∘ fun p : LanguageData × ℚ =>
        { p.1 with percentage := p.2 }) = Prod.snd := by
      funext p
      rfl
    rw [this]
    exact List.map_snd_zip _ _ (le_of_eq hlenadj)
  rw [hproj]
  exact adjustPercentages_sum raw hnn hbig

def langsW : List LanguageData :=
  [⟨"TypeScript", 0, 1, 10⟩, ⟨"JavaScript", 0, 2, 20⟩]

/-- Witness for the C3 theorem at a concrete two-language distribution
(raw percentages 100/3 and 200/3). -/
theorem computeLanguageRows_percentage_sum_witness :
    (0 < ((langsW.filter (fun l => !(ignoredLanguages.contains l.name))).map
      (fun l => l.bytes)).sum) ∧
    langsW.length ≤ 20000 ∧
    ((computeLanguageRows langsW).map (fun r => r.percentage)).sum = 100 :=
  ⟨by decide, by decide,
    computeLanguageRows_percentage_sum langsW (by decide) (by decide)⟩

/-! ## Claim C10: contributor percentages sum -/

/-- Byte/commit share computation: mapping each element to
`count / total * 100` sums to exactly 100 in exact arithmetic when the total
is positive. -/
theorem sum_share_mul_100 {α : Type} (l : List α) (f : α → ℕ)
    (hT : 0 < (l.map f).sum) :
    (l.map (fun x => (f x : ℚ) / ((((l.map f).sum : ℕ)) : ℚ) * 100)).sum = 100 := by
  set T : ℕ := (l.map f).sum with hT2
  have hTq : ((T : ℕ) : ℚ) ≠ 0 := Nat.cast_ne_zero.mpr hT.ne'
  have hcast : ((((l.map f).sum : ℕ)) : ℚ) = (l.map (fun x => (f x : ℚ))).sum := by
    simp [Nat.cast_list_sum, List.map_map, Function.comp_def]
  calc (l.map (fun x => (f x : ℚ) / ((T : ℕ) : ℚ) * 100)).sum
      = (l.map (fun x => (f x : ℚ) * (100 / ((T : ℕ) : ℚ)))).sum :=
        congrArg _ (List.map_congr_left fun x _ => by ring)
    _ = (l.map (fun x => (f x : ℚ))).sum * (100 / ((T : ℕ) : ℚ)) :=
        List.sum_map_mul_right l (fun x => (f x : ℚ)) (100 / ((T : ℕ) : ℚ))
    _ = ((T : ℕ) : ℚ) * (100 / ((T : ℕ) : ℚ)) := by rw [← hcast, hT2]
    _ = 100 := by field_simp

theorem updateContributor_commits_pos (cs : List ContributorData) (a : AuthorCtx)
    (adds dels : Nat) (h : ∀ c ∈ cs, 1 ≤ c.commits) :
    ∀ c ∈ updateContributor cs a adds dels, 1 ≤ c.commits := by
  induction cs with
  | nil =>
    intro c hc
    simp only [updateContributor, List.mem_singleton] at hc
    subst hc
    exact le_refl 1
  | cons c0 rest ih =>
    intro c hc
    simp only [updateContributor] at hc
    by_cases he : (c0.email == a.email) = true
    · rw [if_pos he] at hc
      rcases List.mem_cons.mp hc with rfl | hmem
      · have h0 := h c0 (by simp)
        simp only
        omega
      · exact h c (List.mem_cons.mpr (Or.inr hmem))
    · rw [if_neg he] at hc
      rcases List.mem_cons.mp hc with rfl | hmem
      · exact h c (by simp)
      · exact ih (fun c2 hc2 => h c2 (List.mem_cons.mpr (Or.inr hc2))) c hmem

theorem contributorStep_commits_pos (pd : Line → Int)
    (st : Option AuthorCtx × List ContributorData) (line : Line)
    (h : ∀ c ∈ st.2, 1 ≤ c.commits) :
    ∀ c ∈ (contributorStep pd st line).2, 1 ≤ c.commits := by
  unfold contributorStep
  split
  · exact h
  · split
    · simpa using h
    · split
      · split
        · simpa using updateContributor_commits_pos st.2 _ _ _ h
        · exact h
      · exact h

theorem getContributors_commits_pos (pd : Line → Int) (lines : List Line) :
    ∀ c ∈ getContributors pd lines, 1 ≤ c.commits := by
  have main : ∀ (ls : List Line) (st : Option AuthorCtx × List ContributorData),
      (∀ c ∈ st.2, 1 ≤ c.commits) →
      ∀ c ∈ (ls.foldl (contributorStep pd) st).2, 1 ≤ c.commits := by
    intro ls
    induction ls with
    | nil => intro st h c hc; exact h c hc
    | cons l ls ih =>
      intro st h
      rw [List.foldl_cons]
      exact ih (contributorStep pd st l) (contributorStep_commits_pos pd st l h)
  exact main lines (none, []) (by simp)

/-- C10: the contributor percentages persisted by the orchestrator, computed
as `commits / totalContributions * 100` with no rounding, sum to exactly 100
in exact arithmetic whenever `getContributors` returned at least one
contributor (each parsed contributor has `commits ≥ 1`, so the total is
positive). -/
theorem contributor_percentages_sum_100 (pd : Line → Int) (lines : List Line)
    (h : getContributors pd lines ≠ []) :
    ((contributorRowsOf (getContributors pd lines)).map (fun r => r.percentage)).sum
      = 100 := by
  have hpos : ∀ c ∈ getContributors pd lines, 1 ≤ c.commits :=
    getContributors_commits_pos pd lines
  have hT : 0 < ((getContributors pd lines).map (fun c => c.commits)).sum := by
    cases hcs : getContributors pd lines with
    | nil => exact absurd hcs h
    | cons c rest =>
      have h0 := hpos c (by rw [hcs]; simp)
      simp only [List.map_cons, List.sum_cons]
      omega
  simp only [contributorRowsOf, List.map_map]
  have hcomp : ((fun r : ContributorRow => r.percentage) ∘ fun c : ContributorData =>
      (⟨c.name, c.email, c.commits, c.additions, c.deletions,
        (c.commits : ℚ) / (((((getContributors pd lines).map (fun c => c.commits)).sum
          : ℕ)) : ℚ) * 100, c.firstCommit, c.lastCommit⟩ : ContributorRow))
      = fun c : ContributorData => (c.commits : ℚ)
        / (((((getContributors pd lines).map (fun c => c.commits)).sum : ℕ)) : ℚ) * 100 := by
    funext c
    rfl
  rw [hcomp]
  exact sum_share_mul_100 (getContributors pd lines) (fun c => c.commits) hT

def demoContribLine1 : Line := "Alice|alice@example.com|2024-05-01T10:00:00+02:00".toList

def demoStatLine1 : Line := ("1" ++ "\t" ++ "2" ++ "\t" ++ "src/a.ts").toList

/-- Witness for the C10 theorem on a one-author, one-numstat-line stream. -/
theorem contributor_percentages_sum_100_witness :
    (getContributors pdZero [demoContribLine1, demoStatLine1] ≠ []) ∧
    ((contributorRowsOf (getContributors pdZero [demoContribLine1, demoStatLine1])).map
      (fun r => r.percentage)).sum = 100 :=
  ⟨by decide, contributor_percentages_sum_100 pdZero [demoContribLine1, demoStatLine1]
    (by decide)⟩

/-! ## Claim C2: what getContributors aggregates -/

/-- Effect of one attributed numstat line on the (optional) record of its
email: creation with `commits = 1` or the increment/sum/min/max update. -/
def accumEntry (oc : Option ContributorData) (e : StatEntry) : ContributorData :=
  match oc with
  | none => ⟨e.name, e.email, 1, e.additions, e.deletions, e.date, e.date⟩
  | some c =>
    { c with
      commits := c.commits + 1
      additions := c.additions + e.additions
      deletions := c.deletions + e.deletions
      lastCommit := if e.date > c.lastCommit then e.date else c.lastCommit
      firstCommit := if e.date < c.firstCommit then e.date else c.firstCommit }

/-- Replay of the contributor-map mutations from a list of attributed
numstat entries. -/
def aggEntries (acc : List ContributorData) : List StatEntry → List ContributorData
  | [] => acc
  | e :: es =>
    aggEntries (updateContributor acc ⟨e.name, e.email, e.date⟩ e.additions e.deletions) es

theorem foldl_contributorStep_eq_agg (pd : Line → Int) (lines : List Line)
    (ctx : Option AuthorCtx) (acc : List ContributorData) :
    (lines.foldl (contributorStep pd) (ctx, acc)).2
      = aggEntries acc (contribEntries pd ctx lines) := by
  induction lines generalizing ctx acc with
  | nil => rfl
  | cons l ls ih =>
    rw [List.foldl_cons]
    by_cases h1 : l.isEmpty
    · have hs : contributorStep pd (ctx, acc) l = (ctx, acc) := by
        simp [contributorStep, h1]
      have he : contribEntries pd ctx (l :: ls) = contribEntries pd ctx ls := by
        simp [contribEntries, h1]
      rw [hs, he]
      exact ih ctx acc
    · by_cases h2 : (containsChar '|' l && !containsChar '\t' l) = true
      · have hs : contributorStep pd (ctx, acc) l =
            (some ⟨(splitOnChar '|' l).getD 0 [], (splitOnChar '|' l).getD 1 [],
              pd ((splitOnChar '|' l).getD 2 [])⟩, acc) := by
          simp [contributorStep, h1, h2]
        have he : contribEntries pd ctx (l :: ls) =
            contribEntries pd (some ⟨(splitOnChar '|' l).getD 0 [],
              (splitOnChar '|' l).getD 1 [], pd ((splitOnChar '|' l).getD 2 [])⟩) ls := by
          simp [contribEntries, h1, h2]
        rw [hs, he]
        exact ih _ acc
      · cases ctx with
        | none =>
          have hs : contributorStep pd (none, acc) l = (none, acc) := by
            simp [contributorStep, h1, h2]
          have he : contribEntries pd none (l :: ls) = contribEntries pd none ls := by
            simp [contribEntries, h1, h2]
          rw [hs, he]
          exact ih none acc
        | some a =>
          by_cases h3 : containsChar '\t' l
          · have hs : contributorStep pd (some a, acc) l =
                (some a, updateContributor acc a
                  (if (splitOnChar '\t' l).getD 0 [] = ['-'] then 0
                    else parseIntOr0 ((splitOnChar '\t' l).getD 0 []))
                  (if (splitOnChar '\t' l).getD 1 [] = ['-'] then 0
                    else parseIntOr0 ((splitOnChar '\t' l).getD 1 []))) := by
              simp [contributorStep, h1, h2, h3]
            have he : contribEntries pd (some a) (l :: ls) =
                (⟨a.name, a.email,
                  (if (splitOnChar '\t' l).getD 0 [] = ['-'] then 0
                    else parseIntOr0 ((splitOnChar '\t' l).getD 0 [])),
                  (if (splitOnChar '\t' l).getD 1 [] = ['-'] then 0
                    else parseIntOr0 ((splitOnChar '\t' l).getD 1 [])), a.date⟩ : StatEntry)
                  :: contribEntries pd (some a) ls := by
              simp [contribEntries, h1, h2, h3]
            rw [hs, he]
            rw [ih (some a) _]
            rfl
          · have h4 : containsChar '|' l = false := by
              revert h2 h3
              cases containsChar '|' l <;> cases containsChar '\t' l <;> simp
            have hs : contributorStep pd (some a, acc) l = (some a, acc) := by
              simp [contributorStep, h1, h4, h3]
            have he : contribEntries pd (some a) (l :: ls) = contribEntries pd (some a) ls := by
              simp [contribEntries, h1, h4, h3]
            rw [hs, he]
            exact ih (some a) acc

theorem getContributors_eq_agg (pd : Line → Int) (lines : List Line) :
    getContributors pd lines = aggEntries [] (contribEntries pd none lines) :=
  foldl_contributorStep_eq_agg pd lines none []

theorem findContributor_update_self (cs : List ContributorData) (a : AuthorCtx)
    (adds dels : Nat) :
    findContributor a.email (updateContributor cs a adds dels)
      = some (accumEntry (findContributor a.email cs) ⟨a.name, a.email, adds, dels, a.date⟩) := by
  induction cs with
  | nil =>
    simp [findContributor, updateContributor, accumEntry, List.find?]
  | cons c rest ih =>
    by_cases he : (c.email == a.email) = true
    · simp [findContributor, updateContributor, he, accumEntry, List.find?]
    · simp only [updateContributor, he, if_false, Bool.false_eq_true, findContributor,
        List.find?] at ih ⊢
      exact ih

theorem findContributor_update_other (cs : List ContributorData) (a : AuthorCtx)
    (adds dels : Nat) (email : Line) (hne : email ≠ a.email) :
    findContributor email (updateContributor cs a adds dels)
      = findContributor email cs := by
  induction cs with
  | nil =>
    have h1 : (a.email == email) = false :=
      beq_eq_false_iff_ne.mpr (fun h => hne h.symm)
    simp [findContributor, updateContributor, List.find?, h1]
  | cons c rest ih =>
    by_cases he : (c.email == a.email) = true
    · have hceq : c.email = a.email := by simpa using he
      have hp : (c.email == email) = false :=
        beq_eq_false_iff_ne.mpr (by rw [hceq]; exact fun h => hne h.symm)
      simp [findContributor, updateContributor, he, List.find?, hp]
    · by_cases hp : (c.email == email) = true
      · simp [findContributor, updateContributor, he, List.find?, hp]
      · simp only [findContributor, updateContributor, he, if_false, Bool.false_eq_true,
          List.find?, hp] at ih ⊢
        exact ih

theorem findContributor_aggEntries (es : List StatEntry) (acc : List ContributorData)
    (email : Line) :
    findContributor email (aggEntries acc es)
      = (entriesFor email es).foldl (fun oc e => some (accumEntry oc e))
          (findContributor email acc) := by
  induction es generalizing acc with
  | nil => rfl
  | cons e es ih =>
    simp only [aggEntries]
    by_cases he : e.email = email
    · have hf : entriesFor email (e :: es) = e :: entriesFor email es := by
        simp [entriesFor, he]
      rw [hf, List.foldl_cons, ih]
      congr 1
      subst he
      exact findContributor_update_self acc ⟨e.name, e.email, e.date⟩ e.additions e.deletions
    · have hf : entriesFor email (e :: es) = entriesFor email es := by
        simp [entriesFor, he]
      rw [hf, ih]
      congr 1
      exact findContributor_update_other acc _ _ _ email (fun h => he h.symm)

theorem foldl_accumEntry_some (es : List StatEntry) (c0 : ContributorData) :
    es.foldl (fun oc e => some (accumEntry oc e)) (some c0)
      = some ⟨c0.name, c0.email, c0.commits + es.length,
          c0.additions + (es.map (fun e => e.additions)).sum,
          c0.deletions + (es.map (fun e => e.deletions)).sum,
          es.foldl (fun a e => if e.date < a then e.date else a) c0.firstCommit,
          es.foldl (fun a e => if e.date > a then e.date else a) c0.lastCommit⟩ := by
  induction es generalizing c0 with
  | nil => simp
  | cons e es ih =>
    rw [List.foldl_cons, ih (accumEntry (some c0) e)]
    simp only [accumEntry, List.length_cons, List.map_cons, List.sum_cons, List.foldl_cons]
    congr 1
    simp only [ContributorData.mk.injEq, true_and, and_true]
    refine ⟨?_, ?_, ?_⟩ <;> omega

theorem updateContributor_emails (cs : List ContributorData) (a : AuthorCtx)
    (adds dels : Nat) :
    (updateContributor cs a adds dels).map (fun c => c.email)
      = if cs.any (fun c => c.email == a.email) then cs.map (fun c => c.email)
        else cs.map (fun c => c.email) ++ [a.email] := by
  induction cs with
  | nil => simp [updateContributor]
  | cons c rest ih =>
    by_cases he : (c.email == a.email) = true
    · simp [updateContributor, he, List.any_cons]
    · simp only [updateContributor, he, if_false, Bool.false_eq_true, List.map_cons,
        List.any_cons, Bool.false_or, ih]
      by_cases ha : rest.any (fun c => c.email == a.email)
      · simp [ha]
      · simp [ha]

theorem updateContributor_emails_nodup (cs : List ContributorData) (a : AuthorCtx)
    (adds dels : Nat) (h : (cs.map (fun c => c.email)).Nodup) :
    ((updateContributor cs a adds dels).map (fun c => c.email)).Nodup := by
  rw [updateContributor_emails]
  by_cases ha : cs.any (fun c => c.email == a.email)
  · simp [ha, h]
  · have hnot : a.email ∉ cs.map (fun c => c.email) := by
      intro hmem
      obtain ⟨c, hc, hce⟩ := List.mem_map.mp hmem
      have hany : cs.any (fun c => c.email == a.email) = true :=
        List.any_eq_true.mpr ⟨c, hc, by simp [hce]⟩
      simp [hany] at ha
    simp [ha, List.nodup_append, h, hnot]

theorem contributorStep_emails_nodup (pd : Line → Int)
    (st : Option AuthorCtx × List ContributorData) (line : Line)
    (h : ((st.2).map (fun c => c.email)).Nodup) :
    (((contributorStep pd st line).2).map (fun c => c.email)).Nodup := by
  unfold contributorStep
  split
  · exact h
  · split
    · simpa using h
    · split
      · split
        · simpa using updateContributor_emails_nodup st.2 _ _ _ h
        · exact h
      · exact h

theorem getContributors_emails_nodup (pd : Line → Int) (lines : List Line) :
    ((getContributors pd lines).map (fun c => c.email)).Nodup := by
  have main : ∀ (ls : List Line) (st : Option AuthorCtx × List ContributorData),
      ((st.2).map (fun c => c.email)).Nodup →
      (((ls.foldl (contributorStep pd) st).2).map (fun c => c.email)).Nodup := by
    intro ls
    induction ls with
    | nil => intro st h; exact h
    | cons l ls ih =>
      intro st h
      rw [List.foldl_cons]
      exact ih _ (contributorStep_emails_nodup pd st l h)
  exact main lines (none, []) (by simp)

/-- C2 (amended): `getContributors` keeps one record per distinct author
email that is followed by at least one numstat line, and that record
aggregates the numstat lines attributed to the email: `commits` counts the
attributed numstat lines (one per changed file, not one per commit),
`additions`/`deletions` are the sums over those lines, `firstCommit`/
`lastCommit` the running min/max of the attributed author timestamps, and
`name` the author name of the first attributed line. -/
theorem getContributors_aggregates_attributed_stat_lines (pd : Line → Int)
    (lines : List Line) (email : Line) :
    ((getContributors pd lines).map (fun c => c.email)).Nodup ∧
    (entriesFor email (contribEntries pd none lines) = [] →
      findContributor email (getContributors pd lines) = none) ∧
    (∀ e0 rest, entriesFor email (contribEntries pd none lines) = e0 :: rest →
      findContributor email (getContributors pd lines)
        = some ⟨e0.name, e0.email, 1 + rest.length,
            e0.additions + (rest.map (fun e => e.additions)).sum,
            e0.deletions + (rest.map (fun e => e.deletions)).sum,
            rest.foldl (fun a e => if e.date < a then e.date else a) e0.date,
            rest.foldl (fun a e => if e.date > a then e.date else a) e0.date⟩) := by
  refine ⟨getContributors_emails_nodup pd lines, ?_, ?_⟩
  · intro h
    rw [getContributors_eq_agg, findContributor_aggEntries, h]
    rfl
  · intro e0 rest h
    rw [getContributors_eq_agg, findContributor_aggEntries, h, List.foldl_cons]
    have hinit : (some (accumEntry (findContributor email []) e0))
        = some (⟨e0.name, e0.email, 1, e0.additions, e0.deletions, e0.date, e0.date⟩
          : ContributorData) := rfl
    rw [hinit, foldl_accumEntry_some]

def demoStatLine2 : Line := ("3" ++ "\t" ++ "4" ++ "\t" ++ "src/b.ts").toList

/-- C2 counterexample: a stream with exactly one author-header line (one
commit) whose commit touched two files produces a single contributor record
with `commits = 2`, not `commits = 1`: the parser increments `commits` once
per numstat line, not once per commit. -/
theorem getContributors_counts_stat_lines_not_commits :
    (([demoContribLine1, demoStatLine1, demoStatLine2].filter
        (fun l => containsChar '|' l && !containsChar '\t' l)).length = 1) ∧
    (getContributors pdZero [demoContribLine1, demoStatLine1, demoStatLine2]).map
        (fun c => c.commits) = [2] :=
  ⟨by decide, by decide⟩

def demoEmail : Line := "alice@example.com".toList

def demoEntry1 : StatEntry := ⟨"Alice".toList, demoEmail, 1, 2, 0⟩

def demoEntry2 : StatEntry := ⟨"Alice".toList, demoEmail, 3, 4, 0⟩

/-- Witness for the C2 theorem on the two-numstat-line stream. -/
theorem getContributors_aggregates_attributed_stat_lines_witness :
    (entriesFor demoEmail (contribEntries pdZero none
        [demoContribLine1, demoStatLine1, demoStatLine2]) = demoEntry1 :: [demoEntry2]) ∧
    findContributor demoEmail (getContributors pdZero
        [demoContribLine1, demoStatLine1, demoStatLine2])
      = some ⟨demoEntry1.name, demoEntry1.email, 1 + [demoEntry2].length,
          demoEntry1.additions + ([demoEntry2].map (fun e => e.additions)).sum,
          demoEntry1.deletions + ([demoEntry2].map (fun e => e.deletions)).sum,
          [demoEntry2].foldl (fun a e => if e.date < a then e.date else a) demoEntry1.date,
          [demoEntry2].foldl (fun a e => if e.date > a then e.date else a) demoEntry1.date⟩ :=
  ⟨by decide,
    (getContributors_aggregates_attributed_stat_lines pdZero
      [demoContribLine1, demoStatLine1, demoStatLine2] demoEmail).2.2
      demoEntry1 [demoEntry2] (by decide)⟩

/-! ## Claim C7: detectLanguages aggregation -/

def statFind (L : String) (st : List (String × Nat × Nat)) : Option (String × Nat × Nat) :=
  st.find? (fun e => e.1 == L)

/-- Bytes of the files that `detectLanguages` itself attributes to `L`. -/
def bytesFor (files : List FileEntry) (L : String) : Nat :=
  ((files.filter (fun f => countedLanguage f == some L)).map (fun f => f.size)).sum

def linesFor (files : List FileEntry) (L : String) : Nat :=
  ((files.filter (fun f => countedLanguage f == some L)).map (fun f => f.lines)).sum

/-- Total byte count over all files with a counted language. -/
def countedBytes (files : List FileEntry) : Nat :=
  ((files.filter (fun f => (countedLanguage f).isSome)).map (fun f => f.size)).sum

theorem detectStep_eq (st : List (String × Nat × Nat)) (t : Nat) (f : FileEntry) :
    detectStep (st, t) f
      = match countedLanguage f with
        | none => (st, t)
        | some lang => (updateLangStats st lang f.size f.lines, t + f.size) := by
  unfold detectStep countedLanguage
  cases f.extension with
  | none => rfl
  | some ext =>
    cases List.lookup ext extensionToLanguage with
    | none => rfl
    | some lang => rfl

theorem statFind_update_self (st : List (String × Nat × Nat)) (lang : String)
    (sz ln : Nat) :
    statFind lang (updateLangStats st lang sz ln)
      = match statFind lang st with
        | none => some (lang, sz, ln)
        | some e => some (e.1, e.2.1 + sz, e.2.2 + ln) := by
  induction st with
  | nil => simp [statFind, updateLangStats, List.find?]
  | cons c rest ih =>
    obtain ⟨n, b, l⟩ := c
    by_cases he : n = lang
    · subst he
      simp [statFind, updateLangStats, List.find?]
    · have hb : (n == lang) = false := beq_eq_false_iff_ne.mpr he
      simp only [statFind, updateLangStats, if_neg he, List.find?, hb] at ih ⊢
      exact ih

theorem statFind_update_other (st : List (String × Nat × Nat)) (lang : String)
    (sz ln : Nat) (L : String) (h : L ≠ lang) :
    statFind L (updateLangStats st lang sz ln) = statFind L st := by
  induction st with
  | nil =>
    have hb : (lang == L) = false := beq_eq_false_iff_ne.mpr (fun h2 => h h2.symm)
    simp [statFind, updateLangStats, List.find?, hb]
  | cons c rest ih =>
    obtain ⟨n, b, l⟩ := c
    by_cases he : n = lang
    · subst he
      have hb : (n == L) = false := beq_eq_false_iff_ne.mpr (fun h2 => h h2.symm)
      simp [statFind, updateLangStats, List.find?, hb]
    · by_cases hp : (n == L) = true
      · simp [statFind, updateLangStats, if_neg he, List.find?, hp]
      · simp only [statFind, updateLangStats, if_neg he, List.find?, hp] at ih ⊢
        exact ih

theorem statFind_fold (files : List FileEntry) (st : List (String × Nat × Nat))
    (t : Nat) (L : String) :
    statFind L ((files.foldl detectStep (st, t)).1)
      = match statFind L st with
        | some e => some (e.1, e.2.1 + bytesFor files L, e.2.2 + linesFor files L)
        | none =>
          if files.any (fun f => countedLanguage f == some L)
          then some (L, bytesFor files L, linesFor files L) else none := by
  induction files generalizing st t with
  | nil =>
    cases hf : statFind L st with
    | none => simp [bytesFor, linesFor, hf]
    | some e => simp [bytesFor, linesFor, hf]
  | cons f fs ih =>
    rw [List.foldl_cons, detectStep_eq]
    cases hce : countedLanguage f with
    | none =>
      have hb : bytesFor (f :: fs) L = bytesFor fs L := by
        simp [bytesFor, List.filter_cons, hce]
      have hl : linesFor (f :: fs) L = linesFor fs L := by
        simp [linesFor, List.filter_cons, hce]
      have ha : (f :: fs).any (fun f => countedLanguage f == some L)
          = fs.any (fun f => countedLanguage f == some L) := by
        simp [List.any_cons, hce]
      rw [hb, hl, ha]
      exact ih st t
    | some lang =>
      by_cases hL : lang = L
      · subst hL
        have hb : bytesFor (f :: fs) lang = f.size + bytesFor fs lang := by
          simp [bytesFor, List.filter_cons, hce]
        have hl : linesFor (f :: fs) lang = f.lines + linesFor fs lang := by
          simp [linesFor, List.filter_cons, hce]
        have ha : (f :: fs).any (fun f => countedLanguage f == some lang) = true := by
          simp [List.any_cons, hce]
        rw [hb, hl, ha, ih (updateLangStats st lang f.size f.lines) (t + f.size),
          statFind_update_self]
        cases hf : statFind lang st with
        | none => simp
        | some e =>
          simp only
          cases hf2 : statFind lang (updateLangStats st lang f.size f.lines) <;> simp <;> omega
      · have hb : bytesFor (f :: fs) L = bytesFor fs L := by
          have : (countedLanguage f == some L) = false := by
            rw [hce]
            simp [hL]
          simp [bytesFor, List.filter_cons, this]
        have hl : linesFor (f :: fs) L = linesFor fs L := by
          have : (countedLanguage f == some L) = false := by
            rw [hce]
            simp [hL]
          simp [linesFor, List.filter_cons, this]
        have ha : (f :: fs).any (fun f => countedLanguage f == some L)
            = fs.any (fun f => countedLanguage f == some L) := by
          simp [List.any_cons, hce, hL]
        rw [hb, hl, ha, ih (updateLangStats st lang f.size f.lines) (t + f.size),
          statFind_update_other st lang f.size f.lines L (fun h2 => hL h2.symm)]

theorem fold_totalBytes (files : List FileEntry) (st : List (String × Nat × Nat))
    (t : Nat) :
    (files.foldl detectStep (st, t)).2 = t + countedBytes files := by
  induction files generalizing st t with
  | nil => simp [countedBytes]
  | cons f fs ih =>
    rw [List.foldl_cons, detectStep_eq]
    cases hce : countedLanguage f with
    | none =>
      have hc : countedBytes (f :: fs) = countedBytes fs := by
        simp [countedBytes, List.filter_cons, hce]
      rw [hc]
      exact ih st t
    | some lang =>
      have hc : countedBytes (f :: fs) = f.size + countedBytes fs := by
        simp [countedBytes, List.filter_cons, hce]
      rw [hc, ih (updateLangStats st lang f.size f.lines) (t + f.size)]
      omega

def statKeys (st : List (String × Nat × Nat)) : List String :=
  st.map (fun e => e.1)

theorem updateLangStats_keys (st : List (String × Nat × Nat)) (lang : String)
    (sz ln : Nat) :
    statKeys (updateLangStats st lang sz ln)
      = if lang ∈ statKeys st then statKeys st else statKeys st ++ [lang] := by
  induction st with
  | nil => simp [statKeys, updateLangStats]
  | cons c rest ih =>
    obtain ⟨n, b, l⟩ := c
    by_cases he : n = lang
    · subst he
      simp [statKeys, updateLangStats]
    · simp only [statKeys, updateLangStats, if_neg he, List.map_cons] at ih ⊢
      rw [ih]
      have hmem : lang ∈ n :: List.map (fun e => e.1) rest
          ↔ lang ∈ List.map (fun e => e.1) rest := by
        constructor
        · intro h
          rcases List.mem_cons.mp h with h1 | h1
          · exact absurd h1.symm he
          · exact h1
        · exact fun h => List.mem_cons.mpr (Or.inr h)
      by_cases ha : lang ∈ List.map (fun e => e.1) rest
      · simp [ha, hmem.mpr ha]
      · have : ¬ lang ∈ n :: List.map (fun e => e.1) rest := fun h => ha (hmem.mp h)
        simp [ha, this]

theorem updateLangStats_keys_nodup (st : List (String × Nat × Nat)) (lang : String)
    (sz ln : Nat) (h : (statKeys st).Nodup) :
    (statKeys (updateLangStats st lang sz ln)).Nodup := by
  rw [updateLangStats_keys]
  by_cases ha : lang ∈ statKeys st
  · simp [ha, h]
  · simp [ha, List.nodup_append, h]

theorem fold_keys_nodup (files : List FileEntry) (st : List (String × Nat × Nat))
    (t : Nat) (h : (statKeys st).Nodup) :
    (statKeys ((files.foldl detectStep (st, t)).1)).Nodup := by
  induction files generalizing st t with
  | nil => exact h
  | cons f fs ih =>
    rw [List.foldl_cons, detectStep_eq]
    cases countedLanguage f with
    | none => exact ih st t h
    | some lang =>
      exact ih (updateLangStats st lang f.size f.lines) (t + f.size)
        (updateLangStats_keys_nodup st lang f.size f.lines h)

theorem statFind_of_mem (st : List (String × Nat × Nat)) (e : String × Nat × Nat)
    (h : e ∈ st) (hn : (statKeys st).Nodup) : statFind e.1 st = some e := by
  induction st with
  | nil => cases h
  | cons c rest ih =>
    rcases List.mem_cons.mp h with rfl | hmem
    · simp [statFind, List.find?]
    · rw [show statKeys (c :: rest) = c.1 :: statKeys rest from rfl] at hn
      have hn2 := List.nodup_cons.mp hn
      have hk : c.1 ≠ e.1 := by
        intro hk
        exact hn2.1 (hk ▸ List.mem_map.mpr ⟨e, hmem, rfl⟩)
      have hb : (c.1 == e.1) = false := beq_eq_false_iff_ne.mpr hk
      simp only [statFind, List.find?, hb]
      exact ih hmem hn2.2

/-- C7 (amended): `detectLanguages` aggregates exactly the files whose raw
extension appears in its own (smaller) extension table: for every produced
entry, `bytes`/`lines` are the totals over the files it counts for that
language, the percentage is the byte share of the total over counted files,
a language appears iff some file is counted for it, and the result is sorted
descending by percentage. Files whose `getFileTree` language comes from the
larger lowercasing table but whose raw extension is missing from the local
table (e.g. `.h`) are not counted at all. -/
theorem detectLanguages_spec (files : List FileEntry) :
    (∀ e ∈ detectLanguages files,
        e.bytes = bytesFor files e.name ∧ e.lines = linesFor files e.name ∧
        e.percentage = (e.bytes : ℚ) / (((countedBytes files : ℕ)) : ℚ) * 100) ∧
    (∀ L, (∃ f ∈ files, countedLanguage f = some L)
        ↔ ∃ e ∈ detectLanguages files, e.name = L) ∧
    List.Sorted (fun a b => b.percentage ≤ a.percentage) (detectLanguages files) := by
  have hdet : detectLanguages files
      = sortByPercentageDesc ((files.foldl detectStep ([], 0)).1.map
          (fun e => (⟨e.1, (e.2.1 : ℚ) / (((files.foldl detectStep ([], 0)).2 : ℕ) : ℚ) * 100,
            e.2.1, e.2.2⟩ : LanguageData))) := rfl
  have htot : (files.foldl detectStep ([], 0)).2 = countedBytes files := by
    rw [fold_totalBytes files [] 0]
    omega
  have hnodup : (statKeys ((files.foldl detectStep ([], 0)).1)).Nodup :=
    fold_keys_nodup files [] 0 (by simp [statKeys])
  have hfind : ∀ L, statFind L ((files.foldl detectStep ([], 0)).1)
      = if files.any (fun f => countedLanguage f == some L)
        then some (L, bytesFor files L, linesFor files L) else none := by
    intro L
    rw [statFind_fold files [] 0 L]
    rfl
  have hperm : List.Perm (detectLanguages files) ((files.foldl detectStep ([], 0)).1.map
      (fun e => (⟨e.1, (e.2.1 : ℚ) / (((files.foldl detectStep ([], 0)).2 : ℕ) : ℚ) * 100,
        e.2.1, e.2.2⟩ : LanguageData))) := by
    rw [hdet]
    exact List.perm_insertionSort _ _
  refine ⟨?_, ?_, ?_⟩
  · intro e he
    have hmem := hperm.mem_iff.mp he
    obtain ⟨en, hen, rfl⟩ := List.mem_map.mp hmem
    have hf := statFind_of_mem _ en hen hnodup
    rw [hfind en.1] at hf
    by_cases ha : files.any (fun f => countedLanguage f == some en.1)
    · rw [if_pos ha] at hf
      have hen2 : en = (en.1, bytesFor files en.1, linesFor files en.1) :=
        (Option.some_injective _ hf).symm
      refine ⟨?_, ?_, ?_⟩
      · show en.2.1 = bytesFor files en.1
        rw [hen2]
      · show en.2.2 = linesFor files en.1
        rw [hen2]
      · show (en.2.1 : ℚ) / (((files.foldl detectStep ([], 0)).2 : ℕ) : ℚ) * 100
          = (en.2.1 : ℚ) / (((countedBytes files : ℕ)) : ℚ) * 100
        rw [htot]
    · rw [if_neg ha] at hf
      cases hf
  · intro L
    constructor
    · intro hex
      obtain ⟨f, hfmem, hcf⟩ := hex
      have ha : files.any (fun f => countedLanguage f == some L) = true :=
        List.any_eq_true.mpr ⟨f, hfmem, by simp [hcf]⟩
      have hf := hfind L
      rw [if_pos ha] at hf
      have hen : (L, bytesFor files L, linesFor files L)
          ∈ (files.foldl detectStep ([], 0)).1 :=
        List.mem_of_find?_eq_some hf
      refine ⟨⟨L, (bytesFor files L : ℚ)
          / (((files.foldl detectStep ([], 0)).2 : ℕ) : ℚ) * 100,
          bytesFor files L, linesFor files L⟩, ?_, rfl⟩
      exact hperm.mem_iff.mpr (List.mem_map.mpr ⟨(L, bytesFor files L, linesFor files L),
        hen, rfl⟩)
    · intro hex
      obtain ⟨e, he, hname⟩ := hex
      have hmem := hperm.mem_iff.mp he
      obtain ⟨en, hen, rfl⟩ := List.mem_map.mp hmem
      have hf := statFind_of_mem _ en hen hnodup
      rw [hfind en.1] at hf
      by_cases ha : files.any (fun f => countedLanguage f == some en.1)
      · obtain ⟨f, hfmem, hcf⟩ := List.any_eq_true.mp ha
        refine ⟨f, hfmem, ?_⟩
        have : countedLanguage f = some en.1 := by simpa using hcf
        rw [this]
        exact congrArg some hname
      · rw [if_neg ha] at hf
        cases hf
  · rw [hdet]
    haveI : IsTotal LanguageData (fun a b => b.percentage ≤ a.percentage) :=
      ⟨fun a b => le_total b.percentage a.percentage⟩
    haveI : IsTrans LanguageData (fun a b => b.percentage ≤ a.percentage) :=
      ⟨fun a b c h1 h2 => le_trans h2 h1⟩
    exact List.sorted_insertionSort _ _

def demoHFile : FileEntry :=
  ⟨"lib/a.h", "a.h", 10, some ".h", 5, detectLanguageFromExtension (some ".h")⟩

/-- C7 counterexample: a `.h` file is retained in the file tree with
detected language C (`detectLanguageFromExtension` lowercases and maps `h`),
but `detectLanguages` uses its own smaller table, which has no `.h` key, so
the file's bytes and lines are counted toward no language at all. -/
theorem detectLanguages_misses_file_tree_language :
    detectLanguageFromExtension (some ".h") = some "C" ∧
    demoHFile.language = some "C" ∧
    detectLanguages [demoHFile] = [] :=
  ⟨by decide, by decide, by decide⟩

def demoTsFile : FileEntry :=
  ⟨"src/a.ts", "a.ts", 300, some ".ts", 40, some "TypeScript"⟩

def demoTsEntry : LanguageData :=
  ⟨"TypeScript", (((300 : ℕ)) : ℚ) / (((300 : ℕ)) : ℚ) * 100, 300, 40⟩

/-- Witness for the C7 theorem on a single counted TypeScript file. -/
theorem detectLanguages_spec_witness :
    (demoTsEntry ∈ detectLanguages [demoTsFile]) ∧
    (demoTsEntry.bytes = bytesFor [demoTsFile] demoTsEntry.name ∧
      demoTsEntry.lines = linesFor [demoTsFile] demoTsEntry.name ∧
      demoTsEntry.percentage
        = (demoTsEntry.bytes : ℚ) / (((countedBytes [demoTsFile] : ℕ)) : ℚ) * 100) := by
  have hmem : demoTsEntry ∈ detectLanguages [demoTsFile] := by
    rw [show detectLanguages [demoTsFile] = [demoTsEntry] from rfl]
    exact List.mem_singleton_self _
  exact ⟨hmem, (detectLanguages_spec [demoTsFile]).1 demoTsEntry hmem⟩

/-! ## Claims C8 and C9: commit block parsing -/

theorem splitOnChar_ne_nil (c : Char) (s : Line) : splitOnChar c s ≠ [] := by
  cases s with
  | nil => simp [splitOnChar]
  | cons x xs =>
    simp only [splitOnChar]
    by_cases h : x = c
    · simp [h]
    · cases hm : splitOnChar c xs <;> simp [h, hm]

/-- Joining what a split produced restores the string: the re-join
`descParts.join` of the parser loses nothing. -/
theorem joinWith_splitOnChar (c : Char) (s : Line) :
    joinWith c (splitOnChar c s) = s := by
  induction s with
  | nil => rfl
  | cons x xs ih =>
    cases hm : splitOnChar c xs with
    | nil => exact absurd hm (splitOnChar_ne_nil c xs)
    | cons y ys =>
      rw [hm] at ih
      by_cases h : x = c
      · subst h
        simp only [splitOnChar, if_pos rfl, hm]
        simp [joinWith, ih]
      · simp only [splitOnChar, if_neg h, hm]
        cases ys with
        | nil =>
          simp only [joinWith] at ih ⊢
          simp [ih]
        | cons z zs =>
          simp only [joinWith] at ih ⊢
          simp [ih]

theorem splitOnChar_append (c : Char) (xs ys : Line) (h : c ∉ xs) (z : Line)
    (zs : List Line) (hys : splitOnChar c ys = z :: zs) :
    splitOnChar c (xs ++ ys) = (xs ++ z) :: zs := by
  induction xs with
  | nil => simpa using hys
  | cons a as ih =>
    have ha : a ≠ c := fun he => h (he ▸ List.mem_cons_self a as)
    have h2 : c ∉ as := fun hm => h (List.mem_cons_of_mem a hm)
    rw [List.cons_append]
    simp only [splitOnChar, if_neg ha]
    rw [ih h2]
    simp

theorem splitOnChar_field (c : Char) (f rest : Line) (hf : c ∉ f) :
    splitOnChar c (f ++ c :: rest) = f :: splitOnChar c rest := by
  induction f with
  | nil => simp [splitOnChar]
  | cons a as ih =>
    have ha : a ≠ c := fun he => hf (he ▸ List.mem_cons_self a as)
    have h2 : c ∉ as := fun hm => hf (List.mem_cons_of_mem a hm)
    rw [List.cons_append]
    simp only [splitOnChar, if_neg ha]
    rw [ih]
    exact h2

theorem isEmpty_false_of_ne_nil {l : Line} (h : l ≠ []) : l.isEmpty = false := by
  cases l with
  | nil => exact absurd rfl h
  | cons a as => rfl

theorem commitStep_shape (sp : Line → Nat × Nat × Nat) (fc : Line → List FileChangeData)
    (pd : Line → Int) (branch : Line) (acc : List CommitData × List String) (b : Line) :
    commitStep sp fc pd branch acc b
      = (acc.1 ++ (commitStep sp fc pd branch ([], []) b).1,
        acc.2 ++ (commitStep sp fc pd branch ([], []) b).2) := by
  cases hp : parseBlock sp fc pd branch b <;> simp [commitStep, hp]

theorem foldl_commitStep (sp : Line → Nat × Nat × Nat) (fc : Line → List FileChangeData)
    (pd : Line → Int) (branch : Line) (bs : List Line)
    (acc : List CommitData × List String) :
    bs.foldl (commitStep sp fc pd branch) acc
      = (acc.1 ++ (getCommits sp fc pd branch bs).1,
        acc.2 ++ (getCommits sp fc pd branch bs).2) := by
  induction bs generalizing acc with
  | nil => simp [getCommits]
  | cons b bs ih =>
    rw [List.foldl_cons, ih (commitStep sp fc pd branch acc b)]
    have hg : getCommits sp fc pd branch (b :: bs)
        = ((commitStep sp fc pd branch ([], []) b).1 ++ (getCommits sp fc pd branch bs).1,
          (commitStep sp fc pd branch ([], []) b).2 ++ (getCommits sp fc pd branch bs).2) := by
      rw [getCommits, List.foldl_cons, ih (commitStep sp fc pd branch ([], []) b)]
    rw [hg, commitStep_shape sp fc pd branch acc b]
    simp [List.append_assoc]

theorem getCommits_append (sp : Line → Nat × Nat × Nat) (fc : Line → List FileChangeData)
    (pd : Line → Int) (branch : Line) (xs ys : List Line) :
    getCommits sp fc pd branch (xs ++ ys)
      = ((getCommits sp fc pd branch xs).1 ++ (getCommits sp fc pd branch ys).1,
        (getCommits sp fc pd branch xs).2 ++ (getCommits sp fc pd branch ys).2) := by
  rw [getCommits, List.foldl_append, foldl_commitStep]
  rfl

/-- Text of one commit block as `git log --format="%H|%h|%an|%ae|%aI|%s|%b"`
emits it: the six header fields joined by the delimiter, then the raw body
(whose own newlines produce the block's further lines). -/
def commitBlockText (hash short an ae date subject body : Line) : Line :=
  hash ++ '|' :: (short ++ '|' :: (an ++ '|' :: (ae ++ '|'
    :: (date ++ '|' :: (subject ++ '|' :: body)))))

/-- C8 (amended): for a commit block whose header fields are free of the
delimiter and of newlines and whose essential fields are nonempty, the
parser preserves the whole first line of the body in `description`
(whitespace-trimmed, `undefined` when blank) even when it contains the
delimiter character; body lines after the first are not part of
`description`. -/
theorem getCommits_preserves_first_body_line (sp : Line → Nat × Nat × Nat)
    (fc : Line → List FileChangeData) (pd : Line → Int)
    (branch hash short an ae date subject body bodyFirst : Line) (bodyRest : List Line)
    (hsplit : splitOnChar '\n' body = bodyFirst :: bodyRest)
    (hnp : ∀ f ∈ [hash, short, an, ae, date, subject], '|' ∉ f ∧ '\n' ∉ f)
    (htrim : trimChars (commitBlockText hash short an ae date subject body)
      = commitBlockText hash short an ae date subject body)
    (hhash : hash ≠ []) (han : an ≠ []) (hae : ae ≠ []) (hdate : date ≠ [])
    (hsubj : subject ≠ []) :
    (getCommits sp fc pd branch [commitBlockText hash short an ae date subject body]).1.map
        (fun c => c.description)
      = [if (trimChars bodyFirst).isEmpty then none else some (trimChars bodyFirst)] := by
  obtain ⟨hp1, hn1⟩ := hnp hash (by simp)
  obtain ⟨hp2, hn2⟩ := hnp short (by simp)
  obtain ⟨hp3, hn3⟩ := hnp an (by simp)
  obtain ⟨hp4, hn4⟩ := hnp ae (by simp)
  obtain ⟨hp5, hn5⟩ := hnp date (by simp)
  obtain ⟨hp6, hn6⟩ := hnp subject (by simp)
  set hd : Line := hash ++ '|' :: (short ++ '|' :: (an ++ '|' :: (ae ++ '|'
    :: (date ++ '|' :: (subject ++ ['|']))))) with hhd
  have hb : commitBlockText hash short an ae date subject body = hd ++ body := by
    simp [commitBlockText, hhd, List.append_assoc]
  have hcat : ∀ (u v : Line), '\n' ∉ u → '\n' ∉ v → '\n' ∉ u ++ v :=
    fun u v hu hv hm => (List.mem_append.mp hm).elim hu hv
  have hconsp : ∀ (v : Line), '\n' ∉ v → '\n' ∉ '|' :: v :=
    fun v hv hm => (List.mem_cons.mp hm).elim (fun h => absurd h (by decide)) hv
  have hnheader : '\n' ∉ hd := by
    rw [hhd]
    exact hcat hash _ hn1 (hconsp _ (hcat short _ hn2 (hconsp _ (hcat an _ hn3
      (hconsp _ (hcat ae _ hn4 (hconsp _ (hcat date _ hn5 (hconsp _
      (hcat subject _ hn6 (hconsp _ (by simp))))))))))))
  have hsplitb : splitOnChar '\n' (commitBlockText hash short an ae date subject body)
      = (hd ++ bodyFirst) :: bodyRest := by
    rw [hb]
    exact splitOnChar_append '\n' hd body hnheader bodyFirst bodyRest hsplit
  have hne1 : (hd ++ bodyFirst).isEmpty = false := by
    apply isEmpty_false_of_ne_nil
    rw [hhd]
    cases hash <;> simp
  have hparts : splitOnChar '|' (hd ++ bodyFirst)
      = hash :: short :: an :: ae :: date :: subject :: splitOnChar '|' bodyFirst := by
    have hstep : hd ++ bodyFirst = commitBlockText hash short an ae date subject bodyFirst := by
      simp [commitBlockText, hhd, List.append_assoc]
    rw [hstep, commitBlockText]
    rw [splitOnChar_field '|' hash _ hp1]
    rw [splitOnChar_field '|' short _ hp2]
    rw [splitOnChar_field '|' an _ hp3]
    rw [splitOnChar_field '|' ae _ hp4]
    rw [splitOnChar_field '|' date _ hp5]
    rw [splitOnChar_field '|' subject _ hp6]
  have hlen : ¬ ((hash :: short :: an :: ae :: date :: subject
      :: splitOnChar '|' bodyFirst).length < 6) := by
    simp only [List.length_cons]
    omega
  simp only [getCommits, List.foldl_cons, List.foldl_nil, commitStep, parseBlock,
    htrim, hsplitb, List.filter_cons, hne1, Bool.not_false, if_true]
  simp only [parseBlockLines, hparts, hlen, if_false]
  simp only [List.getD_cons_zero, List.getD_cons_succ, List.drop_succ_cons,
    List.drop_zero, joinWith_splitOnChar]
  simp only [isEmpty_false_of_ne_nil hhash, isEmpty_false_of_ne_nil han,
    isEmpty_false_of_ne_nil hae, isEmpty_false_of_ne_nil hdate,
    isEmpty_false_of_ne_nil hsubj, Bool.or_false, Bool.false_or]
  simp [List.map_cons]

def demoHash : Line := "aaaabbbbccccddddeeeeffff0000111122223333".toList

def demoShort : Line := "aaaabbb".toList

def demoAn : Line := "Alice".toList

def demoAe : Line := "alice@example.com".toList

def demoDate : Line := "2024-05-01T10:00:00+02:00".toList

def demoSubject : Line := "Subject".toList

def demoMultiBody : Line := ("Fixes a|b" ++ "\n" ++ "More detail").toList

set_option maxRecDepth 8000 in
/-- C8 counterexample: a block whose body spans two lines and contains the
delimiter is parsed with `description` holding only the first body line
(`Fixes a|b`, with the delimiter intact), not the full body — the second
body line is dropped from `description`. -/
theorem getCommits_truncates_multiline_body :
    (containsChar '|' demoMultiBody = true) ∧
    ((getCommits spZero fcNil pdZero "main".toList
        [commitBlockText demoHash demoShort demoAn demoAe demoDate demoSubject
          demoMultiBody]).1.map (fun c => c.description)
      = [some ("Fixes a|b".toList)]) ∧
    some ("Fixes a|b".toList) ≠ some demoMultiBody :=
  ⟨by decide, by decide, by decide⟩

set_option maxRecDepth 8000 in
/-- Witness for the C8 theorem on the same two-line body. -/
theorem getCommits_preserves_first_body_line_witness :
    (splitOnChar '\n' demoMultiBody = ["Fixes a|b".toList, "More detail".toList]) ∧
    ((getCommits spZero fcNil pdZero "main".toList
        [commitBlockText demoHash demoShort demoAn demoAe demoDate demoSubject
          demoMultiBody]).1.map (fun c => c.description)
      = [if (trimChars ("Fixes a|b".toList)).isEmpty then none
          else some (trimChars ("Fixes a|b".toList))]) :=
  ⟨by decide,
    getCommits_preserves_first_body_line spZero fcNil pdZero "main".toList demoHash
      demoShort demoAn demoAe demoDate demoSubject demoMultiBody ("Fixes a|b".toList)
      ["More detail".toList] (by decide) (by decide) (by decide) (by decide) (by decide)
      (by decide) (by decide) (by decide)⟩

/-- C9: a block with fewer than six header fields, or with an empty hash,
author name, author email, date, or subject, makes `parseBlock` emit a
diagnostic instead of a commit, and `getCommits` on a stream containing it
returns exactly the commits of the surrounding blocks plus that diagnostic —
the malformed block never aborts the batch. -/
theorem getCommits_drops_malformed_and_continues (sp : Line → Nat × Nat × Nat)
    (fc : Line → List FileChangeData) (pd : Line → Int) (branch : Line)
    (bs1 bs2 : List Line) (b firstLine : Line) (rest : List Line)
    (hlines : (splitOnChar '\n' (trimChars b)).filter (fun l => !l.isEmpty)
      = firstLine :: rest)
    (hbad : (splitOnChar '|' firstLine).length < 6 ∨
      ((splitOnChar '|' firstLine).getD 0 []).isEmpty = true ∨
      ((splitOnChar '|' firstLine).getD 2 []).isEmpty = true ∨
      ((splitOnChar '|' firstLine).getD 3 []).isEmpty = true ∨
      ((splitOnChar '|' firstLine).getD 4 []).isEmpty = true ∨
      ((splitOnChar '|' firstLine).getD 5 []).isEmpty = true) :
    ∃ m, parseBlock sp fc pd branch b = BlockResult.warn m ∧
      getCommits sp fc pd branch (bs1 ++ b :: bs2)
        = ((getCommits sp fc pd branch bs1).1 ++ (getCommits sp fc pd branch bs2).1,
          (getCommits sp fc pd branch bs1).2
            ++ m :: (getCommits sp fc pd branch bs2).2) := by
  have hwarn : ∃ m, parseBlock sp fc pd branch b = BlockResult.warn m := by
    rw [parseBlock, hlines]
    by_cases h6 : (splitOnChar '|' firstLine).length < 6
    · refine ⟨"Skipping commit with insufficient fields", ?_⟩
      simp [parseBlockLines, h6]
    · rcases hbad with h | h | h | h | h | h
      · exact absurd h h6
      all_goals
        refine ⟨"Skipping commit with missing fields", ?_⟩
        have h2 := h
        simp only [List.isEmpty_iff, List.getD_eq_getElem?_getD] at h2
        simp [parseBlockLines, h6, h2]
  obtain ⟨m, hm⟩ := hwarn
  refine ⟨m, hm, ?_⟩
  rw [show bs1 ++ b :: bs2 = bs1 ++ ([b] ++ bs2) from by simp]
  rw [getCommits_append, getCommits_append]
  have hb1 : getCommits sp fc pd branch [b] = ([], [m]) := by
    simp [getCommits, commitStep, hm]
  rw [hb1]
  simp

def demoGood1 : Line :=
  ("aaaabbbbccccddddeeeeffff0000111122223333" ++ "|aaaa|Alice|alice@example.com|"
    ++ "2024-05-01|Add feature").toList

def demoBad : Line :=
  ("bbbbccccddddeeeeffffaaaa1111222233330000" ++ "|bbbb|Bob|2024-05-02|Oops").toList

def demoGood2 : Line :=
  ("ccccddddeeeeffffaaaabbbb2222333300001111" ++ "|cccc|Carol|carol@example.com|"
    ++ "2024-05-03|Fix bug").toList

set_option maxRecDepth 8000 in
/-- Witness for the C9 theorem: a block missing the author-email field (five
header fields) between two well-formed blocks. -/
theorem getCommits_drops_malformed_and_continues_witness :
    ((splitOnChar '\n' (trimChars demoBad)).filter (fun l => !l.isEmpty)
      = demoBad :: []) ∧
    ((splitOnChar '|' demoBad).length < 6) ∧
    (∃ m, parseBlock spZero fcNil pdZero "main".toList demoBad = BlockResult.warn m ∧
      getCommits spZero fcNil pdZero "main".toList ([demoGood1] ++ demoBad :: [demoGood2])
        = ((getCommits spZero fcNil pdZero "main".toList [demoGood1]).1
            ++ (getCommits spZero fcNil pdZero "main".toList [demoGood2]).1,
          (getCommits spZero fcNil pdZero "main".toList [demoGood1]).2
            ++ m :: (getCommits spZero fcNil pdZero "main".toList [demoGood2]).2)) :=
  ⟨by decide, by decide,
    getCommits_drops_malformed_and_continues spZero fcNil pdZero "main".toList
      [demoGood1] [demoGood2] demoBad demoBad [] (by decide) (Or.inl (by decide))⟩
